import Mathlib

/-!
Verification of the tiled-mask polygon merger of HistomicsTK
(`histomicstk/annotations_and_masks/polygon_merger.py`, documented by
`docs/examples/polygon_merger_from_tiled_masks.ipynb`).

The Python implementation itself is not part of this source tree; only its
documentation notebook is.  Every definition below is therefore modelled from
the specification of the merger (contour extraction bookkeeping, boundary
touch detection, shared-edge identification, bounding-box candidate search,
shapely-style pair validation, 4-connectivity grouping, morphological
stitching, and the orchestrating `run`).  Raster mask decoding and boundary
tracing of the input masks is out of scope: the pipeline here starts from the
per-tile extracted contours, whose coordinates are already translated to the
whole-slide frame.
-/

namespace PolygonMerger

/-- An integer pixel coordinate `(x, y)` in the whole-slide frame. -/
abbrev Pt := Int × Int

/-- Chebyshev (chessboard) distance between two pixels; this is the natural
pixel metric for square-structuring-element morphology. -/
def chebZ (p q : Pt) : Nat := max (p.1 - q.1).natAbs (p.2 - q.2).natAbs

/-- Modelled from the spec: the bounding box of a contour
(`ymin/ymax/xmin/xmax` as in the output of `get_contours_from_mask`). -/
structure BBox where
  ymin : Int
  ymax : Int
  xmin : Int
  xmax : Int
deriving DecidableEq, Inhabited

/-- Fold computing the least `x` coordinate of a point list. -/
def xLo : List Pt → Int
  | [] => 0
  | p :: r => r.foldl (fun a q => min a q.1) p.1

/-- Fold computing the greatest `x` coordinate of a point list. -/
def xHi : List Pt → Int
  | [] => 0
  | p :: r => r.foldl (fun a q => max a q.1) p.1

/-- Fold computing the least `y` coordinate of a point list. -/
def yLo : List Pt → Int
  | [] => 0
  | p :: r => r.foldl (fun a q => min a q.2) p.2

/-- Fold computing the greatest `y` coordinate of a point list. -/
def yHi : List Pt → Int
  | [] => 0
  | p :: r => r.foldl (fun a q => max a q.2) p.2

/-- Bounding box of a coordinate list (Geometry Utilities). -/
def bboxOf (l : List Pt) : BBox :=
  { ymin := yLo l, ymax := yHi l, xmin := xLo l, xmax := xHi l }

/-- Point inside (or on the border of) a bounding box. -/
def pointInBB (p : Pt) (b : BBox) : Prop :=
  b.xmin ≤ p.1 ∧ p.1 ≤ b.xmax ∧ b.ymin ≤ p.2 ∧ p.2 ≤ b.ymax

instance (p : Pt) (b : BBox) : Decidable (pointInBB p b) := by
  unfold pointInBB; infer_instance

/-- One of the four sides of a rectangular tile. -/
inductive Side where
  | top
  | left
  | bottom
  | right
deriving DecidableEq, Inhabited

/-- The side of the neighbouring tile that faces a given side. -/
def opposite : Side → Side
  | .top => .bottom
  | .bottom => .top
  | .left => .right
  | .right => .left

/-- Modelled from the spec: per-side boolean flags recording which sides of
its owning tile a contour touches (`touches_edge-top/left/bottom/right`). -/
structure Touches where
  top : Bool
  left : Bool
  bottom : Bool
  right : Bool
deriving DecidableEq, Inhabited

/-- Read the flag of one side. -/
def touchesSide (t : Touches) : Side → Bool
  | .top => t.top
  | .left => t.left
  | .bottom => t.bottom
  | .right => t.right

/-- Modelled from the spec: a tile with its global bounding box
(`roiinfos` entry: top/left/bottom/right in image pixel coordinates). -/
structure Tile where
  id : Nat
  top : Int
  left : Int
  bottom : Int
  right : Int
deriving DecidableEq, Inhabited

/-- Modelled from the spec: a contour record as produced by per-tile contour
extraction and consumed/produced by the merger.  The same record type also
serves as `MergedContourRecord`: a stitched contour has `tileId := none` and
`touches := none` (its per-side flags are meaningless once merged across
tiles). -/
structure Cont where
  group : String
  color : String
  tileId : Option Nat
  coords : List Pt
  hasHoles : Bool
  bbox : Option BBox := none
  touches : Option Touches := none
deriving DecidableEq, Inhabited

/-- Modelled from the spec: a shared edge between two adjacent tiles;
`sideA` is the side of tile `a` that faces tile `b`. -/
structure SharedEdge where
  a : Nat
  b : Nat
  sideA : Side
deriving DecidableEq, Inhabited

/-- Boundary-Touch Detector: test each of the four tile-side coordinates
against the contour's points using pixel-distance tolerance `tol`. -/
def touchDetect (tol : Nat) (t : Tile) (coords : List Pt) : Touches :=
  { top := coords.any fun p => decide ((p.2 - t.top).natAbs ≤ tol)
    left := coords.any fun p => decide ((p.1 - t.left).natAbs ≤ tol)
    bottom := coords.any fun p => decide ((p.2 - t.bottom).natAbs ≤ tol)
    right := coords.any fun p => decide ((p.1 - t.right).natAbs ≤ tol) }

/-- Tile Topology Builder, single pair: does tile `ta` share an edge with
`tb`, and if so through which of `ta`'s sides?  Only right/bottom facings are
reported so that each adjacent pair yields one shared edge; the coordinate
ranges along the shared axis must overlap in more than a point, which ignores
diagonal (corner-only) adjacency. -/
def tileAdjSide (tol : Nat) (ta tb : Tile) : Option Side :=
  if (ta.right - tb.left).natAbs ≤ tol ∧ ta.top < tb.bottom ∧ tb.top < ta.bottom then
    some .right
  else if (ta.bottom - tb.top).natAbs ≤ tol ∧ ta.left < tb.right ∧ tb.left < ta.right then
    some .bottom
  else
    none

/-- Shared edges whose `a` tile is the `i`-th tile of the list. -/
def edgesFrom (tol : Nat) (tiles : List Tile) (i : Nat) : List SharedEdge :=
  (List.range tiles.length).filterMap fun j =>
    if (tiles.getD i default).id ≠ (tiles.getD j default).id then
      (tileAdjSide tol (tiles.getD i default) (tiles.getD j default)).map
        fun s => ⟨(tiles.getD i default).id, (tiles.getD j default).id, s⟩
    else none

/-- Tile Topology Builder: one `SharedEdge` per adjacent tile pair. -/
def sharedEdges (tol : Nat) (tiles : List Tile) : List SharedEdge :=
  (List.range tiles.length).flatMap (edgesFrom tol tiles)

/-- Look up the tile owning a contour and run the Boundary-Touch Detector on
it; `none` when the contour has no owning tile (e.g. an already stitched
contour) or the tile is unknown. -/
def flagsFor (tol : Nat) (tiles : List Tile) (c : Cont) : Option Touches :=
  c.tileId.bind fun tid =>
    (tiles.find? fun t => decide (t.id = tid)).map fun t => touchDetect tol t c.coords

/-- Does the contour touch the given side of its owning tile?  A contour
with no flags (stitched, or unknown tile) touches no side and is excluded
from all candidate-pair search. -/
def contTouches (tol : Nat) (tiles : List Tile) (c : Cont) (s : Side) : Bool :=
  match flagsFor tol tiles c with
  | some f => touchesSide f s
  | none => false

/-- Does the contour touch any side of its owning tile? -/
def hasAnyFlag (tol : Nat) (tiles : List Tile) (c : Cont) : Bool :=
  match flagsFor tol tiles c with
  | some f => f.top || f.left || f.bottom || f.right
  | none => false

/-- Indices of the contours owned by tile `tid` that touch its side `s`
(the per-shared-edge search pool of the Pair Candidate Finder). -/
def facingIdx (tol : Nat) (tiles : List Tile) (cs : List Cont) (tid : Nat) (s : Side) :
    List Nat :=
  (List.range cs.length).filter fun i =>
    let c := cs.getD i default
    decide (c.tileId = some tid) && contTouches tol tiles c s

/-- Indices of the contours owned by tile `tid` that touch any of its sides
(the boundary contours of that tile). -/
def boundaryIdx (tol : Nat) (tiles : List Tile) (cs : List Cont) (tid : Nat) : List Nat :=
  (List.range cs.length).filter fun i =>
    let c := cs.getD i default
    decide (c.tileId = some tid) && hasAnyFlag tol tiles c

/-- Are two coordinate ranges `[a1, a2]` and `[b1, b2]` within `mt` pixels of
each other? -/
def rangeNear (mt : Nat) (a1 a2 b1 b2 : Int) : Bool :=
  decide (a1 ≤ b2 + mt) && decide (b1 ≤ a2 + mt)

/-- Bounding-box proximity prefilter of the Pair Candidate Finder: the two
contours' boxes must be within `mt` pixels along the shared-edge axis
(the `y` axis for a vertical shared edge, the `x` axis for a horizontal
one). -/
def bboxNear (mt : Nat) (c d : Cont) (s : Side) : Bool :=
  let bc := bboxOf c.coords
  let bd := bboxOf d.coords
  match s with
  | .left => rangeNear mt bc.ymin bc.ymax bd.ymin bd.ymax
  | .right => rangeNear mt bc.ymin bc.ymax bd.ymin bd.ymax
  | .top => rangeNear mt bc.xmin bc.xmax bd.xmin bd.xmax
  | .bottom => rangeNear mt bc.xmin bc.xmax bd.xmin bd.xmax

/-- Pair Candidate Finder for one shared edge: cross product of the two
facing contour pools, pruned by bounding-box proximity. -/
def candidatesForEdge (mt tol : Nat) (tiles : List Tile) (cs : List Cont)
    (e : SharedEdge) : List (Nat × Nat) :=
  (facingIdx tol tiles cs e.a e.sideA).flatMap fun i =>
    (facingIdx tol tiles cs e.b (opposite e.sideA)).filterMap fun j =>
      if bboxNear mt (cs.getD i default) (cs.getD j default) e.sideA then some (i, j)
      else none

/-- All candidate contour pairs of a run, over all shared edges. -/
def allCandidates (mt tol : Nat) (tiles : List Tile) (cs : List Cont) :
    List (Nat × Nat) :=
  (sharedEdges tol tiles).flatMap (candidatesForEdge mt tol tiles cs)

/-- Number of candidate-pair comparisons performed by the Pair Candidate
Finder: for each shared edge, the size of the cross product of the two facing
contour pools. -/
def comparisonsCount (tol : Nat) (tiles : List Tile) (cs : List Cont) : Nat :=
  ((sharedEdges tol tiles).map fun e =>
    (facingIdx tol tiles cs e.a e.sideA).length *
      (facingIdx tol tiles cs e.b (opposite e.sideA)).length).sum

/-- Do the two point lists come within `mt` pixels of each other? -/
def closeContours (mt : Nat) (c d : List Pt) : Bool :=
  c.any fun p => d.any fun q => decide (chebZ p q ≤ mt)

/-- Pair Validator: the two contours must carry the same class label and
their boundaries must come within `merge_thresh` pixels of each other (which
is exactly intersection of the two boundaries each buffered outward by
`merge_thresh / 2`, see `BufferedIntersect`). -/
def validatePair (mt : Nat) (c d : Cont) : Bool :=
  (c.group == d.group) && closeContours mt c.coords d.coords

/-- Chebyshev distance over the rational plane, used to state the buffered
regions of the Pair Validator exactly (buffer radius `merge_thresh / 2` is a
half-integer. -/
def chebQ (p q : ℚ × ℚ) : ℚ := max |p.1 - q.1| |p.2 - q.2|

/-- Membership in the boundary region of a contour buffered outward by
`merge_thresh / 2` pixels. -/
def inBuffer (mt : Nat) (c : List Pt) (p : ℚ × ℚ) : Prop :=
  ∃ q ∈ c, chebQ p (((q.1 : ℚ), (q.2 : ℚ))) ≤ (mt : ℚ) / 2

/-- The two buffered boundary regions intersect. -/
def BufferedIntersect (mt : Nat) (c d : List Pt) : Prop :=
  ∃ p : ℚ × ℚ, inBuffer mt c p ∧ inBuffer mt d p

/-- Keep the candidate pairs accepted by the Pair Validator. -/
def validFilter (mt : Nat) (cs : List Cont) (prs : List (Nat × Nat)) :
    List (Nat × Nat) :=
  prs.filter fun pr => validatePair mt (cs.getD pr.1 default) (cs.getD pr.2 default)

/-- Validation stage: candidate pairs that fail validation are discarded
silently; discarding is never an error. -/
def validateCandidates (mt : Nat) (cs : List Cont) (prs : List (Nat × Nat)) :
    Except String (List (Nat × Nat)) :=
  .ok (validFilter mt cs prs)

/-- One saturation step of the Connectivity Grouper: every node of `univ`
already in `s` or adjacent to a node of `s` (this is breadth-first closure
under the validated-pair relation, shared with the connected-component
labelling of re-extracted rasters). -/
def stepOnce {α : Type} [DecidableEq α] (adjB : α → α → Bool) (univ s : List α) :
    List α :=
  univ.filter fun m => decide (m ∈ s) || s.any fun a => adjB a m

/-- Iterate `stepOnce` a given number of times. -/
def iterStep {α : Type} [DecidableEq α] (adjB : α → α → Bool) (univ : List α) :
    Nat → List α → List α
  | 0, s => s
  | n + 1, s => iterStep adjB univ n (stepOnce adjB univ s)

/-- The connected component of `a`: saturate for `univ.length` rounds, which
always reaches the closure. -/
def comp {α : Type} [DecidableEq α] (adjB : α → α → Bool) (univ : List α) (a : α) :
    List α :=
  iterStep adjB univ univ.length [a]

/-- Connectivity Grouper: the list of connected components (merge groups) of
`univ` under the adjacency `adjB`; singleton groups are valid groups. -/
def groupsOf {α : Type} [DecidableEq α] (adjB : α → α → Bool) (univ : List α) :
    List (List α) :=
  (univ.map (comp adjB univ)).dedup

/-- The adjacency relation of a boolean adjacency function. -/
def adjP {α : Type} (adjB : α → α → Bool) : α → α → Prop := fun a b => adjB a b = true

/-- Adjacency induced by a list of validated pairs (an undirected edge
list). -/
def adjOf (E : List (Nat × Nat)) (a b : Nat) : Bool :=
  E.any fun e =>
    (decide (e.1 = a) && decide (e.2 = b)) || (decide (e.1 = b) && decide (e.2 = a))

/-- All pixels within Chebyshev distance `r` of `p` (square structuring
element of radius `r`). -/
def ballPts (r : Nat) (p : Pt) : List Pt :=
  (List.range (2 * r + 1)).flatMap fun (i : Nat) =>
    (List.range (2 * r + 1)).map fun (j : Nat) =>
      (p.1 - (r : Int) + (i : Int), p.2 - (r : Int) + (j : Int))

/-- Morphological dilation of a finite pixel set by radius `r`. -/
def dilatePts (r : Nat) (S : List Pt) : List Pt :=
  (S.flatMap (ballPts r)).dedup

/-- Morphological erosion of a finite pixel set by radius `r`. -/
def erodePts (r : Nat) (S : List Pt) : List Pt :=
  S.filter fun p => (ballPts r p).all fun q => decide (q ∈ S)

/-- Morphological closing (dilate then erode) by radius `r`; this is the
seam-closing step of the Contour Stitcher. -/
def closingPts (r : Nat) (S : List Pt) : List Pt :=
  erodePts r (dilatePts r S)

/-- Pixel adjacency (8-connectivity) restricted to the raster `U`, used to
re-extract contours from the morphologically processed raster. -/
def ptAdj (U : List Pt) (p q : Pt) : Bool :=
  decide (chebZ p q ≤ 1) && decide (p ∈ U) && decide (q ∈ U)

/-- Contour Stitcher, raster part: pool the members' points, close the seam
morphologically with radius `⌈merge_thresh / 2⌉`, and re-extract the
connected contours of the result. -/
def reextract (mt : Nat) (members : List Cont) : List (List Pt) :=
  let r := (mt + 1) / 2
  let U := closingPts r ((members.flatMap fun c => c.coords).dedup)
  groupsOf (ptAdj U) U

/-- Pick the largest re-extracted contour. -/
def largestOf (l : List (List Pt)) : List Pt :=
  l.foldl (fun best g => if best.length < g.length then g else best) []

/-- Contour Stitcher for one merge group.  A degenerate member (fewer than 3
points) is a `GeometryError`; if re-extraction yields more than one contour
the largest is kept and a warning is logged (a non-fatal policy, not an
error).  The stitched record has no owning tile and unset per-side flags. -/
def stitchGroup (mt : Nat) (members : List Cont) : Except String (Cont × List String) :=
  if members.any fun c => decide (c.coords.length < 3) then
    .error "GeometryError: degenerate contour"
  else
    .ok ({ group := (members.headD default).group,
           color := (members.headD default).color,
           tileId := none, coords := largestOf (reextract mt members),
           hasHoles := false,
           bbox := some (bboxOf (largestOf (reextract mt members))),
           touches := none },
         if (reextract mt members).length ≤ 1 then []
         else ["warning: stitched group re-extracted to multiple contours; keeping largest"])

/-- Emit a pass-through record for an unmerged contour: the contour itself
with its bounding box and per-side touch flags filled in. -/
def passRec (tol : Nat) (tiles : List Tile) (c : Cont) : Cont :=
  { c with bbox := some (bboxOf c.coords), touches := flagsFor tol tiles c }

/-- The validated pairs of a run. -/
def validPairs (mt tol : Nat) (tiles : List Tile) (cs : List Cont) :
    List (Nat × Nat) :=
  validFilter mt cs (allCandidates mt tol tiles cs)

/-- The merge groups of a run: connected components of the contour indices
under the validated-pair adjacency. -/
def compsOf (mt tol : Nat) (tiles : List Tile) (cs : List Cont) : List (List Nat) :=
  groupsOf (adjOf (validPairs mt tol tiles cs)) (List.range cs.length)

/-- Emit the output records of one merge group: singleton groups pass
through unchanged; larger groups are stitched, and if stitching fails the
group falls back to emitting its member contours individually. -/
def emitGroup (mt tol : Nat) (tiles : List Tile) (cs : List Cont) (g : List Nat) :
    List Cont × List String :=
  if g.length ≤ 1 then
    (g.map fun i => passRec tol tiles (cs.getD i default), [])
  else
    match stitchGroup mt (g.map fun i => cs.getD i default) with
    | .ok (r, ws) => ([r], ws)
    | .error e => (g.map fun i => passRec tol tiles (cs.getD i default), [e])

/-- The merge stage of a run: candidate search, validation, grouping, and
stitching, producing the flat output collection and the warning log. -/
def mergeStage (mt tol : Nat) (tiles : List Tile) (cs : List Cont) :
    List Cont × List String :=
  ((compsOf mt tol tiles cs).flatMap fun g => (emitGroup mt tol tiles cs g).1,
   (compsOf mt tol tiles cs).flatMap fun g => (emitGroup mt tol tiles cs g).2)

/-- Modelled from the spec: one tile of the input together with the result
of extracting its mask's contours (the extraction itself — mask decoding and
boundary tracing from `masks_to_annotations_handler.py` — is outside this
model, so its outcome, possibly a failure, is part of the input). -/
structure TileInput where
  tile : Tile
  contoursE : Except String (List Cont)

/-- Extraction stage of the orchestrator: collect the per-tile contours,
stamping each with its owning tile; a failing tile's contours are dropped
with a logged warning and the run continues. -/
def extractStage (inputs : List TileInput) : List Cont × List String :=
  (inputs.flatMap fun ti =>
    match ti.contoursE with
    | .ok cs => cs.map fun c => { c with tileId := some ti.tile.id }
    | .error _ => [],
   inputs.flatMap fun ti =>
    match ti.contoursE with
    | .ok _ => []
    | .error e => ["warning: tile skipped: " ++ e])

/-- Merge Orchestrator: full pipeline from per-tile extraction results to
the flat merged contour collection plus the warning log. -/
def run (mt tol : Nat) (inputs : List TileInput) : List Cont × List String :=
  let ex := extractStage inputs
  let ms := mergeStage mt tol (inputs.map fun ti => ti.tile) ex.1
  (ms.1, ex.2 ++ ms.2)

/-- One row of the output table of `Polygon_merger.run()`. -/
structure OutRow where
  group : String
  color : String
  has_holes : Nat
  coords_x : String
  coords_y : String
deriving DecidableEq, Inhabited

/-- Join a list of strings with comma separators. -/
def joinComma : List String → String
  | [] => ""
  | [s] => s
  | s :: t => s ++ "," ++ joinComma t

/-- Serialize one output contour record to a table row: the coordinate
sequence becomes two comma-separated integer strings and the has-holes flag
becomes 0/1. -/
def toRow (c : Cont) : OutRow :=
  { group := c.group
    color := c.color
    has_holes := if c.hasHoles then 1 else 0
    coords_x := joinComma (c.coords.map fun p => toString p.1)
    coords_y := joinComma (c.coords.map fun p => toString p.2) }

/-- The output table of a run: one row per output contour. -/
def runRows (mt tol : Nat) (inputs : List TileInput) : List OutRow :=
  ((run mt tol inputs).1).map toRow

/-! ### Bounding-box lemmas -/

theorem foldl_min_proj (f : Pt → Int) :
    ∀ (l : List Pt) (a : Int),
      (∀ x ∈ l, l.foldl (fun b q => min b (f q)) a ≤ f x) ∧
        l.foldl (fun b q => min b (f q)) a ≤ a := by
  intro l
  induction l with
  | nil => exact fun a => ⟨by simp, le_refl a⟩
  | cons p t ih =>
    intro a
    refine ⟨?_, ?_⟩
    · intro x hx
      rcases List.mem_cons.mp hx with h | h
      · subst h
        exact le_trans (ih (min a (f x))).2 (min_le_right _ _)
      · exact (ih (min a (f p))).1 x h
    · exact le_trans (ih (min a (f p))).2 (min_le_left _ _)

theorem foldl_max_proj (f : Pt → Int) :
    ∀ (l : List Pt) (a : Int),
      (∀ x ∈ l, f x ≤ l.foldl (fun b q => max b (f q)) a) ∧
        a ≤ l.foldl (fun b q => max b (f q)) a := by
  intro l
  induction l with
  | nil => exact fun a => ⟨by simp, le_refl a⟩
  | cons p t ih =>
    intro a
    refine ⟨?_, ?_⟩
    · intro x hx
      rcases List.mem_cons.mp hx with h | h
      · subst h
        exact le_trans (le_max_right _ _) (ih (max a (f x))).2
      · exact (ih (max a (f p))).1 x h
    · exact le_trans (le_max_left _ _) (ih (max a (f p))).2

theorem xLo_le {l : List Pt} {p : Pt} (hp : p ∈ l) : xLo l ≤ p.1 := by
  cases l with
  | nil => cases hp
  | cons q t =>
    rcases List.mem_cons.mp hp with h | h
    · rw [h]; exact (foldl_min_proj (fun r => r.1) t q.1).2
    · exact (foldl_min_proj (fun r => r.1) t q.1).1 p h

theorem le_xHi {l : List Pt} {p : Pt} (hp : p ∈ l) : p.1 ≤ xHi l := by
  cases l with
  | nil => cases hp
  | cons q t =>
    rcases List.mem_cons.mp hp with h | h
    · rw [h]; exact (foldl_max_proj (fun r => r.1) t q.1).2
    · exact (foldl_max_proj (fun r => r.1) t q.1).1 p h

theorem yLo_le {l : List Pt} {p : Pt} (hp : p ∈ l) : yLo l ≤ p.2 := by
  cases l with
  | nil => cases hp
  | cons q t =>
    rcases List.mem_cons.mp hp with h | h
    · rw [h]; exact (foldl_min_proj (fun r => r.2) t q.2).2
    · exact (foldl_min_proj (fun r => r.2) t q.2).1 p h

theorem le_yHi {l : List Pt} {p : Pt} (hp : p ∈ l) : p.2 ≤ yHi l := by
  cases l with
  | nil => cases hp
  | cons q t =>
    rcases List.mem_cons.mp hp with h | h
    · rw [h]; exact (foldl_max_proj (fun r => r.2) t q.2).2
    · exact (foldl_max_proj (fun r => r.2) t q.2).1 p h

theorem mem_pointInBB_bboxOf {l : List Pt} {p : Pt} (hp : p ∈ l) :
    pointInBB p (bboxOf l) :=
  ⟨xLo_le hp, le_xHi hp, yLo_le hp, le_yHi hp⟩

/-! ### Chebyshev distance and morphology lemmas -/

theorem chebZ_self (p : Pt) : chebZ p p = 0 := by simp [chebZ]

theorem natAbs_sub_flip (a b : Int) : (a - b).natAbs = (b - a).natAbs := by omega

theorem chebZ_comm (p q : Pt) : chebZ p q = chebZ q p := by
  unfold chebZ
  rw [natAbs_sub_flip p.1 q.1, natAbs_sub_flip p.2 q.2]

theorem mem_ballPts {r : Nat} {p q : Pt} : q ∈ ballPts r p ↔ chebZ q p ≤ r := by
  constructor
  · intro hq
    rcases List.mem_flatMap.mp hq with ⟨i, hi, hq2⟩
    rcases List.mem_map.mp hq2 with ⟨j, hj, rfl⟩
    rw [List.mem_range] at hi hj
    simp only [chebZ, Nat.max_le]
    refine ⟨by omega, by omega⟩
  · intro h
    simp only [chebZ, Nat.max_le] at h
    refine List.mem_flatMap.mpr ⟨(q.1 - p.1 + r).toNat, List.mem_range.mpr (by omega),
      List.mem_map.mpr ⟨(q.2 - p.2 + r).toNat, List.mem_range.mpr (by omega), ?_⟩⟩
    obtain ⟨qx, qy⟩ := q
    simp only at h
    simp only [Prod.mk.injEq]
    refine ⟨by omega, by omega⟩

theorem mem_dilatePts {r : Nat} {S : List Pt} {q : Pt} :
    q ∈ dilatePts r S ↔ ∃ p ∈ S, chebZ q p ≤ r := by
  simp [dilatePts, List.mem_dedup, List.mem_flatMap, mem_ballPts]

theorem mem_erodePts {r : Nat} {S : List Pt} {p : Pt} :
    p ∈ erodePts r S ↔ p ∈ S ∧ ∀ q, chebZ q p ≤ r → q ∈ S := by
  simp [erodePts, List.mem_filter, List.all_eq_true, mem_ballPts]

theorem closing_extensive {r : Nat} {S : List Pt} {p : Pt} (hp : p ∈ S) :
    p ∈ closingPts r S := by
  rw [closingPts, mem_erodePts]
  constructor
  · exact mem_dilatePts.mpr ⟨p, hp, by rw [chebZ_self]; exact Nat.zero_le r⟩
  · intro q hq
    exact mem_dilatePts.mpr ⟨p, hp, hq⟩

theorem closing_nodup (r : Nat) (S : List Pt) : (closingPts r S).Nodup :=
  (List.nodup_dedup _).filter _

/-! ### Connectivity grouping: saturation computes connected components -/

section Grouping

variable {α : Type} [DecidableEq α] {adjB : α → α → Bool} {univ : List α}

theorem mem_stepOnce {s : List α} {m : α} :
    m ∈ stepOnce adjB univ s ↔ m ∈ univ ∧ (m ∈ s ∨ ∃ a ∈ s, adjB a m = true) := by
  simp [stepOnce, List.mem_filter, List.any_eq_true]

theorem stepOnce_subset {s : List α} : stepOnce adjB univ s ⊆ univ :=
  fun m hm => (List.mem_filter.mp hm).1

theorem stepOnce_nodup (hu : univ.Nodup) (s : List α) :
    (stepOnce adjB univ s).Nodup :=
  hu.filter _

theorem subset_stepOnce {s : List α} (hs : s ⊆ univ) : s ⊆ stepOnce adjB univ s :=
  fun m hm => mem_stepOnce.mpr ⟨hs hm, Or.inl hm⟩

theorem stepOnce_pred_iff {s : List α} {x : α} (hx : x ∈ univ) :
    ((decide (x ∈ s) || s.any fun a => adjB a x) = true) ↔ x ∈ stepOnce adjB univ s := by
  rw [mem_stepOnce]
  simp [List.any_eq_true, hx]

theorem stepOnce_ext {s t : List α} (h : ∀ x, x ∈ s ↔ x ∈ t) :
    stepOnce adjB univ s = stepOnce adjB univ t := by
  unfold stepOnce
  apply List.filter_congr
  intro m _
  have h1 : decide (m ∈ s) = decide (m ∈ t) := decide_eq_decide.mpr (h m)
  have h2 : (s.any fun a => adjB a m) = (t.any fun a => adjB a m) := by
    rw [Bool.eq_iff_iff]
    simp only [List.any_eq_true]
    exact ⟨fun ⟨a, ha, hb⟩ => ⟨a, (h a).mp ha, hb⟩, fun ⟨a, ha, hb⟩ => ⟨a, (h a).mpr ha, hb⟩⟩
  rw [h1, h2]

theorem iterStep_fix {t : List α} (h : stepOnce adjB univ t = t) (n : Nat) :
    iterStep adjB univ n t = t := by
  induction n with
  | zero => rfl
  | succ n ih =>
    show iterStep adjB univ n (stepOnce adjB univ t) = t
    rw [h]
    exact ih

theorem iterStep_subset_univ {s : List α} (hs : s ⊆ univ) (n : Nat) :
    iterStep adjB univ n s ⊆ univ := by
  induction n generalizing s with
  | zero => exact hs
  | succ n ih => exact ih stepOnce_subset

theorem subset_iterStep {s : List α} (hs : s ⊆ univ) (n : Nat) :
    s ⊆ iterStep adjB univ n s := by
  induction n generalizing s with
  | zero => exact fun x hx => hx
  | succ n ih =>
    exact List.Subset.trans (subset_stepOnce hs) (ih stepOnce_subset)

theorem iterStep_succ_comm (n : Nat) (s : List α) :
    iterStep adjB univ (n + 1) s = stepOnce adjB univ (iterStep adjB univ n s) := by
  induction n generalizing s with
  | zero => rfl
  | succ n ih =>
    show iterStep adjB univ (n + 1) (stepOnce adjB univ s) = _
    rw [ih]
    rfl

theorem reach_fix (hu : univ.Nodup) :
    ∀ (n : Nat) (s : List α), s ⊆ univ → s.Nodup →
      univ.length + 1 ≤ n + s.length →
      stepOnce adjB univ (iterStep adjB univ n s) = iterStep adjB univ n s := by
  intro n
  induction n with
  | zero =>
    intro s hsub hnd hlen
    exfalso
    have hle : s.length ≤ univ.length := (hnd.subperm hsub).length_le
    omega
  | succ n ih =>
    intro s hsub hnd hlen
    by_cases hstab : stepOnce adjB univ s ⊆ s
    · have hequiv : ∀ x, x ∈ stepOnce adjB univ s ↔ x ∈ s :=
        fun x => ⟨fun h => hstab h, fun h => subset_stepOnce hsub h⟩
      have hfix : stepOnce adjB univ (stepOnce adjB univ s) = stepOnce adjB univ s :=
        stepOnce_ext hequiv
      show stepOnce adjB univ (iterStep adjB univ n (stepOnce adjB univ s)) =
        iterStep adjB univ n (stepOnce adjB univ s)
      rw [iterStep_fix hfix n]
      exact hfix
    · rw [List.subset_def] at hstab
      push_neg at hstab
      obtain ⟨m, hm, hms⟩ := hstab
      have hgrow : s.length + 1 ≤ (stepOnce adjB univ s).length := by
        have h1 : (m :: s).Nodup := List.nodup_cons.mpr ⟨hms, hnd⟩
        have h2 : (m :: s) ⊆ stepOnce adjB univ s := by
          intro x hx
          rcases List.mem_cons.mp hx with h | h
          · rw [h]; exact hm
          · exact subset_stepOnce hsub h
        have h3 := (h1.subperm h2).length_le
        simpa using h3
      exact ih (stepOnce adjB univ s) stepOnce_subset (stepOnce_nodup hu s) (by omega)

theorem comp_fix (hu : univ.Nodup) {a : α} (ha : a ∈ univ) :
    stepOnce adjB univ (comp adjB univ a) = comp adjB univ a :=
  reach_fix hu univ.length [a]
    (fun x hx => (List.mem_singleton.mp hx) ▸ ha)
    (List.nodup_singleton a) (by simp)

theorem comp_subset {a : α} (ha : a ∈ univ) : comp adjB univ a ⊆ univ :=
  iterStep_subset_univ (fun x hx => (List.mem_singleton.mp hx) ▸ ha) _

theorem self_mem_comp {a : α} (ha : a ∈ univ) : a ∈ comp adjB univ a :=
  subset_iterStep (fun x hx => (List.mem_singleton.mp hx) ▸ ha) _
    (List.mem_singleton.mpr rfl)

theorem iterStep_sound {s : List α} (n : Nat) {b : α}
    (hb : b ∈ iterStep adjB univ n s) :
    ∃ a ∈ s, Relation.ReflTransGen (adjP adjB) a b := by
  induction n generalizing s with
  | zero => exact ⟨b, hb, Relation.ReflTransGen.refl⟩
  | succ n ih =>
    obtain ⟨a, ha, hr⟩ := ih hb
    rcases (mem_stepOnce.mp ha).2 with h | ⟨c, hc, hadj⟩
    · exact ⟨a, h, hr⟩
    · exact ⟨c, hc, Relation.ReflTransGen.head hadj hr⟩

theorem comp_sound {a b : α} (hb : b ∈ comp adjB univ a) :
    Relation.ReflTransGen (adjP adjB) a b := by
  obtain ⟨c, hc, hr⟩ := iterStep_sound univ.length hb
  rw [List.mem_singleton] at hc
  rw [← hc]
  exact hr

theorem closed_reach (hu : univ.Nodup) {a : α} (ha : a ∈ univ)
    (htgt : ∀ x y, adjB x y = true → y ∈ univ) {b : α}
    (hr : Relation.ReflTransGen (adjP adjB) a b) : b ∈ comp adjB univ a := by
  induction hr with
  | refl => exact self_mem_comp ha
  | tail _ hadj ih =>
    rw [← comp_fix hu ha]
    exact mem_stepOnce.mpr ⟨htgt _ _ hadj, Or.inr ⟨_, ih, hadj⟩⟩

theorem mem_comp_iff (hu : univ.Nodup) {a : α} (ha : a ∈ univ)
    (htgt : ∀ x y, adjB x y = true → y ∈ univ) {b : α} :
    b ∈ comp adjB univ a ↔ Relation.ReflTransGen (adjP adjB) a b ∧ b ∈ univ :=
  ⟨fun h => ⟨comp_sound h, comp_subset ha h⟩,
   fun ⟨hr, _⟩ => closed_reach hu ha htgt hr⟩

omit [DecidableEq α] in
theorem adjP_symm (hsym : ∀ x y, adjB x y = adjB y x) : Symmetric (adjP adjB) :=
  fun x y h => by
    unfold adjP at h ⊢
    rw [hsym y x]
    exact h

theorem comp_eq_of_equiv (hne : univ ≠ []) {a b : α}
    (h : ∀ x, x ∈ comp adjB univ a ↔ x ∈ comp adjB univ b) :
    comp adjB univ a = comp adjB univ b := by
  obtain ⟨m, hm⟩ : ∃ m, univ.length = m + 1 := by
    cases hlen : univ.length with
    | zero => exact absurd (List.length_eq_zero.mp hlen) hne
    | succ k => exact ⟨k, rfl⟩
  unfold comp
  rw [hm, iterStep_succ_comm, iterStep_succ_comm]
  unfold stepOnce
  apply List.filter_congr
  intro x hx
  rw [Bool.eq_iff_iff, stepOnce_pred_iff hx, stepOnce_pred_iff hx]
  have h2 := h x
  unfold comp at h2
  rw [hm, iterStep_succ_comm, iterStep_succ_comm] at h2
  exact h2

theorem comp_canon (hu : univ.Nodup)
    (hsym : ∀ x y, adjB x y = adjB y x)
    (htgt : ∀ x y, adjB x y = true → y ∈ univ)
    {a b : α} (ha : a ∈ univ) (hb : b ∈ comp adjB univ a) :
    comp adjB univ a = comp adjB univ b := by
  have hbu : b ∈ univ := comp_subset ha hb
  have hr : Relation.ReflTransGen (adjP adjB) a b := comp_sound hb
  have hsymR := Relation.ReflTransGen.symmetric (adjP_symm hsym)
  apply comp_eq_of_equiv (List.ne_nil_of_mem ha)
  intro x
  rw [mem_comp_iff hu ha htgt, mem_comp_iff hu hbu htgt]
  exact ⟨fun ⟨hr2, hx⟩ => ⟨Relation.ReflTransGen.trans (hsymR hr) hr2, hx⟩,
    fun ⟨hr2, hx⟩ => ⟨Relation.ReflTransGen.trans hr hr2, hx⟩⟩

theorem groups_mem_iff {g : List α} :
    g ∈ groupsOf adjB univ ↔ ∃ x ∈ univ, comp adjB univ x = g := by
  simp [groupsOf, List.mem_dedup, List.mem_map]

theorem groups_partition (hu : univ.Nodup)
    (hsym : ∀ x y, adjB x y = adjB y x)
    (htgt : ∀ x y, adjB x y = true → y ∈ univ)
    {x : α} (hx : x ∈ univ) :
    (comp adjB univ x ∈ groupsOf adjB univ ∧ x ∈ comp adjB univ x) ∧
      ∀ g ∈ groupsOf adjB univ, x ∈ g → g = comp adjB univ x := by
  refine ⟨⟨groups_mem_iff.mpr ⟨x, hx, rfl⟩, self_mem_comp hx⟩, ?_⟩
  intro g hg hxg
  obtain ⟨y, hy, rfl⟩ := groups_mem_iff.mp hg
  exact comp_canon hu hsym htgt hy hxg

theorem groups_ne_nil {g : List α} (hg : g ∈ groupsOf adjB univ) : g ≠ [] := by
  obtain ⟨y, hy, rfl⟩ := groups_mem_iff.mp hg
  exact List.ne_nil_of_mem (self_mem_comp hy)

theorem stepOnce_congr {adjB2 : α → α → Bool}
    (h : ∀ x y, adjB x y = adjB2 x y) (s : List α) :
    stepOnce adjB univ s = stepOnce adjB2 univ s := by
  unfold stepOnce
  apply List.filter_congr
  intro m _
  have h2 : (fun a => adjB a m) = fun a => adjB2 a m := funext fun a => h a m
  rw [h2]

theorem iterStep_congr {adjB2 : α → α → Bool}
    (h : ∀ x y, adjB x y = adjB2 x y) (n : Nat) (s : List α) :
    iterStep adjB univ n s = iterStep adjB2 univ n s := by
  induction n generalizing s with
  | zero => rfl
  | succ n ih =>
    show iterStep adjB univ n (stepOnce adjB univ s) = _
    rw [stepOnce_congr h, ih]
    rfl

theorem comp_congr {adjB2 : α → α → Bool}
    (h : ∀ x y, adjB x y = adjB2 x y) (a : α) :
    comp adjB univ a = comp adjB2 univ a :=
  iterStep_congr h univ.length [a]

theorem filter_mem_singleton (hu : univ.Nodup) {i : α} (hi : i ∈ univ) :
    (univ.filter fun m => decide (m = i)) = [i] := by
  induction univ with
  | nil => cases hi
  | cons a t ih =>
    rcases List.mem_cons.mp hi with h | h
    · subst h
      have hnt : i ∉ t := (List.nodup_cons.mp hu).1
      have hnil : t.filter (fun m => decide (m = i)) = [] :=
        List.filter_eq_nil_iff.mpr fun m hm => by
          simp only [decide_eq_true_eq]
          intro hma
          exact hnt (hma ▸ hm)
      simp [List.filter_cons, hnil]
    · have hne : a ≠ i := by
        intro he
        exact (List.nodup_cons.mp hu).1 (he ▸ h)
      have := ih (List.nodup_cons.mp hu).2 h
      simp [List.filter_cons, hne, this]

theorem comp_no_edges (hfalse : ∀ x y, adjB x y = false) (hu : univ.Nodup)
    {i : α} (hi : i ∈ univ) : comp adjB univ i = [i] := by
  have hstep : stepOnce adjB univ [i] = [i] := by
    unfold stepOnce
    have hpred : ∀ m ∈ univ,
        (decide (m ∈ [i]) || [i].any fun a => adjB a m) = decide (m = i) := by
      intro m _
      simp [hfalse, List.mem_singleton]
    rw [List.filter_congr hpred]
    exact filter_mem_singleton hu hi
  exact iterStep_fix hstep _

end Grouping

/-! ### Adjacency from an edge list -/

theorem adjOf_symm (E : List (Nat × Nat)) (a b : Nat) : adjOf E a b = adjOf E b a := by
  unfold adjOf
  have h : (fun (e : Nat × Nat) =>
      (decide (e.1 = a) && decide (e.2 = b)) || (decide (e.1 = b) && decide (e.2 = a))) =
      fun (e : Nat × Nat) =>
      (decide (e.1 = b) && decide (e.2 = a)) || (decide (e.1 = a) && decide (e.2 = b)) :=
    funext fun e => Bool.or_comm _ _
  rw [h]

theorem adjOf_of_mem {E : List (Nat × Nat)} {a b : Nat} (h : (a, b) ∈ E) :
    adjOf E a b = true := by
  rw [adjOf, List.any_eq_true]
  exact ⟨(a, b), h, by simp⟩

theorem adjOf_true_mem {E : List (Nat × Nat)} {a b : Nat} (h : adjOf E a b = true) :
    (a, b) ∈ E ∨ (b, a) ∈ E := by
  rw [adjOf, List.any_eq_true] at h
  obtain ⟨e, he, hcond⟩ := h
  rcases Bool.or_eq_true_iff.mp hcond with h2 | h2
  · left
    rw [Bool.and_eq_true, decide_eq_true_eq, decide_eq_true_eq] at h2
    rw [show e = (a, b) from Prod.ext h2.1 h2.2] at he
    exact he
  · right
    rw [Bool.and_eq_true, decide_eq_true_eq, decide_eq_true_eq] at h2
    rw [show e = (b, a) from Prod.ext h2.1 h2.2] at he
    exact he

theorem adjOf_congr {E E2 : List (Nat × Nat)}
    (h : ∀ pr : Nat × Nat, pr ∈ E ↔ pr ∈ E2) (a b : Nat) :
    adjOf E a b = adjOf E2 a b := by
  rw [Bool.eq_iff_iff]
  unfold adjOf
  simp only [List.any_eq_true]
  exact ⟨fun ⟨e, he, hc⟩ => ⟨e, (h e).mp he, hc⟩, fun ⟨e, he, hc⟩ => ⟨e, (h e).mpr he, hc⟩⟩

/-! ### List utilities -/

theorem getD_mem {β : Type} {l : List β} {i : Nat} (h : i < l.length) (d : β) :
    l.getD i d ∈ l := by
  rw [List.getD_eq_getElem l d h]
  exact List.getElem_mem h

theorem map_getD_range {β γ : Type} (f : β → γ) (d : β) (cs : List β) :
    (List.range cs.length).map (fun i => f (cs.getD i d)) = cs.map f := by
  induction cs with
  | nil => rfl
  | cons c t ih =>
    show (List.range (t.length + 1)).map _ = _
    rw [List.range_succ_eq_map, List.map_cons, List.map_map]
    exact congrArg (List.cons (f c)) ih

/-! ### Candidate-pair membership characterizations -/

theorem mem_facingIdx {tol : Nat} {tiles : List Tile} {cs : List Cont}
    {tid : Nat} {s : Side} {i : Nat} :
    i ∈ facingIdx tol tiles cs tid s ↔
      i < cs.length ∧ (cs.getD i default).tileId = some tid ∧
        contTouches tol tiles (cs.getD i default) s = true := by
  simp [facingIdx, List.mem_filter, List.mem_range, and_assoc]

theorem mem_candidatesForEdge {mt tol : Nat} {tiles : List Tile} {cs : List Cont}
    {e : SharedEdge} {i j : Nat} :
    (i, j) ∈ candidatesForEdge mt tol tiles cs e ↔
      i ∈ facingIdx tol tiles cs e.a e.sideA ∧
        j ∈ facingIdx tol tiles cs e.b (opposite e.sideA) ∧
        bboxNear mt (cs.getD i default) (cs.getD j default) e.sideA = true := by
  simp only [candidatesForEdge, List.mem_flatMap, List.mem_filterMap]
  constructor
  · rintro ⟨i2, hi2, j2, hj2, hif⟩
    split at hif
    · rename_i hb
      rw [Option.some.injEq, Prod.mk.injEq] at hif
      obtain ⟨rfl, rfl⟩ := hif
      exact ⟨hi2, hj2, hb⟩
    · cases hif
  · rintro ⟨hi, hj, hb⟩
    exact ⟨i, hi, j, hj, by rw [if_pos hb]⟩

/-! ### Shared-edge and validated-pair facts -/

theorem mem_allCandidates {mt tol : Nat} {tiles : List Tile} {cs : List Cont}
    {pr : Nat × Nat} :
    pr ∈ allCandidates mt tol tiles cs ↔
      ∃ e ∈ sharedEdges tol tiles, pr ∈ candidatesForEdge mt tol tiles cs e := by
  simp [allCandidates, List.mem_flatMap]

theorem sharedEdges_spec {tol : Nat} {tiles : List Tile} {e : SharedEdge}
    (he : e ∈ sharedEdges tol tiles) :
    e.a ≠ e.b ∧ (∃ t ∈ tiles, t.id = e.a) ∧ ∃ t ∈ tiles, t.id = e.b := by
  rw [sharedEdges, List.mem_flatMap] at he
  obtain ⟨i, hi, hei⟩ := he
  rw [edgesFrom, List.mem_filterMap] at hei
  obtain ⟨j, hj, hcond⟩ := hei
  rw [List.mem_range] at hi hj
  split at hcond
  · rename_i hne
    rw [Option.map_eq_some'] at hcond
    obtain ⟨s, _, heq⟩ := hcond
    rw [← heq]
    exact ⟨hne, ⟨tiles.getD i default, getD_mem hi default, rfl⟩,
      ⟨tiles.getD j default, getD_mem hj default, rfl⟩⟩
  · cases hcond

theorem mem_validPairs {mt tol : Nat} {tiles : List Tile} {cs : List Cont}
    {pr : Nat × Nat} :
    pr ∈ validPairs mt tol tiles cs ↔
      pr ∈ allCandidates mt tol tiles cs ∧
        validatePair mt (cs.getD pr.1 default) (cs.getD pr.2 default) = true := by
  simp [validPairs, validFilter, List.mem_filter]

theorem allCandidates_lt {mt tol : Nat} {tiles : List Tile} {cs : List Cont}
    {i j : Nat} (h : (i, j) ∈ allCandidates mt tol tiles cs) :
    i < cs.length ∧ j < cs.length := by
  obtain ⟨e, _, hc⟩ := mem_allCandidates.mp h
  obtain ⟨hi, hj, _⟩ := mem_candidatesForEdge.mp hc
  exact ⟨(mem_facingIdx.mp hi).1, (mem_facingIdx.mp hj).1⟩

theorem validPairs_lt {mt tol : Nat} {tiles : List Tile} {cs : List Cont}
    {i j : Nat} (h : (i, j) ∈ validPairs mt tol tiles cs) :
    i < cs.length ∧ j < cs.length :=
  allCandidates_lt (mem_validPairs.mp h).1

theorem validAdj_target {mt tol : Nat} {tiles : List Tile} {cs : List Cont}
    {x y : Nat} (h : adjOf (validPairs mt tol tiles cs) x y = true) :
    y ∈ List.range cs.length := by
  rcases adjOf_true_mem h with h2 | h2
  · exact List.mem_range.mpr (validPairs_lt h2).2
  · exact List.mem_range.mpr (validPairs_lt h2).1

/-! ### Pass-through records -/

theorem passRec_tileId (tol : Nat) (tiles : List Tile) (c : Cont) :
    (passRec tol tiles c).tileId = c.tileId := rfl

theorem passRec_coords (tol : Nat) (tiles : List Tile) (c : Cont) :
    (passRec tol tiles c).coords = c.coords := rfl

theorem flagsFor_passRec (tol : Nat) (tiles : List Tile) (c : Cont) :
    flagsFor tol tiles (passRec tol tiles c) = flagsFor tol tiles c := rfl

theorem contTouches_passRec (tol : Nat) (tiles : List Tile) (c : Cont) (s : Side) :
    contTouches tol tiles (passRec tol tiles c) s = contTouches tol tiles c s := rfl

theorem validatePair_passRec (mt tol : Nat) (tiles : List Tile) (a b : Cont) :
    validatePair mt (passRec tol tiles a) (passRec tol tiles b) = validatePair mt a b := rfl

theorem bboxNear_passRec (mt tol : Nat) (tiles : List Tile) (a b : Cont) (s : Side) :
    bboxNear mt (passRec tol tiles a) (passRec tol tiles b) s = bboxNear mt a b s := rfl

theorem passRec_idem (tol : Nat) (tiles : List Tile) (c : Cont) :
    passRec tol tiles (passRec tol tiles c) = passRec tol tiles c := rfl

theorem passRec_of_stitched (tol : Nat) (tiles : List Tile) {c : Cont}
    (htid : c.tileId = none) (hbb : c.bbox = some (bboxOf c.coords))
    (htch : c.touches = none) : passRec tol tiles c = c := by
  have hfl : flagsFor tol tiles c = none := by rw [flagsFor, htid]; rfl
  unfold passRec
  rw [hfl, ← hbb, ← htch]

/-! ### The merge stage with no validated pairs is a no-op -/

theorem flatMap_pure_map {β γ : Type} (f : β → γ) (l : List β) :
    (l.flatMap fun x => [f x]) = l.map f := by
  induction l with
  | nil => rfl
  | cons a t ih => simp [List.flatMap_cons, ih]

theorem compsOf_no_valid {mt tol : Nat} {tiles : List Tile} {cs : List Cont}
    (hv : validPairs mt tol tiles cs = []) :
    compsOf mt tol tiles cs = (List.range cs.length).map fun i => [i] := by
  have hfalse : ∀ x y, adjOf (validPairs mt tol tiles cs) x y = false := by
    rw [hv]
    intro x y
    rfl
  unfold compsOf groupsOf
  rw [List.map_congr_left fun i hi =>
    comp_no_edges hfalse (List.nodup_range _) (i := i) hi]
  exact List.dedup_eq_self.mpr
    (List.Nodup.map (fun a b h => ((List.cons.injEq ..).mp h).1) (List.nodup_range _))

theorem mergeStage_no_valid {mt tol : Nat} {tiles : List Tile} {cs : List Cont}
    (hv : validPairs mt tol tiles cs = []) :
    mergeStage mt tol tiles cs = (cs.map (passRec tol tiles), []) := by
  unfold mergeStage
  rw [compsOf_no_valid hv, List.flatMap_map, List.flatMap_map]
  have h1 : (fun i : Nat => (emitGroup mt tol tiles cs [i]).1) =
      fun i : Nat => [passRec tol tiles (cs.getD i default)] :=
    funext fun i => rfl
  have h2 : (fun i : Nat => (emitGroup mt tol tiles cs [i]).2) =
      fun i : Nat => ([] : List String) :=
    funext fun i => rfl
  rw [Prod.mk.injEq]
  refine ⟨?_, ?_⟩
  · rw [h1, flatMap_pure_map, map_getD_range]
  · rw [h2]
    exact List.flatMap_eq_nil_iff.mpr fun x _ => rfl

/-! ### Structure of the merge-stage output -/

theorem mergeStage_fst (mt tol : Nat) (tiles : List Tile) (cs : List Cont) :
    (mergeStage mt tol tiles cs).1 =
      (compsOf mt tol tiles cs).flatMap fun g => (emitGroup mt tol tiles cs g).1 := rfl

theorem mergeStage_snd (mt tol : Nat) (tiles : List Tile) (cs : List Cont) :
    (mergeStage mt tol tiles cs).2 =
      (compsOf mt tol tiles cs).flatMap fun g => (emitGroup mt tol tiles cs g).2 := rfl

theorem stitchGroup_not_deg {mt : Nat} {members : List Cont}
    (hdeg : ∀ c ∈ members, 3 ≤ c.coords.length) :
    stitchGroup mt members =
      .ok ({ group := (members.headD default).group,
             color := (members.headD default).color,
             tileId := none, coords := largestOf (reextract mt members),
             hasHoles := false,
             bbox := some (bboxOf (largestOf (reextract mt members))),
             touches := none },
           if (reextract mt members).length ≤ 1 then []
           else ["warning: stitched group re-extracted to multiple contours; keeping largest"]) := by
  have hany : (members.any fun c => decide (c.coords.length < 3)) = false := by
    rw [List.any_eq_false]
    intro c hc
    simp only [decide_eq_true_eq]
    exact Nat.not_lt.mpr (hdeg c hc)
  rw [stitchGroup, if_neg (by rw [hany]; exact Bool.false_ne_true)]

theorem stitchGroup_ok_spec {mt : Nat} {members : List Cont}
    {pr : Cont × List String} (h : stitchGroup mt members = .ok pr) :
    pr.1.tileId = none ∧ pr.1.touches = none ∧
      pr.1.bbox = some (bboxOf pr.1.coords) := by
  rw [stitchGroup] at h
  split at h
  · cases h
  · rw [Except.ok.injEq] at h
    rw [← h]
    exact ⟨rfl, rfl, rfl⟩

theorem eq_singleton_of_len_le_one {β : Type} {g : List β} {x : β}
    (hlen : g.length ≤ 1) (hx : x ∈ g) : g = [x] := by
  cases g with
  | nil => cases hx
  | cons a t =>
    have ht : t = [] := by
      rw [List.length_cons] at hlen
      exact List.length_eq_zero.mp (by omega)
    subst ht
    rw [List.mem_singleton.mp hx]

theorem compsOf_subset {mt tol : Nat} {tiles : List Tile} {cs : List Cont}
    {g : List Nat} (hg : g ∈ compsOf mt tol tiles cs) : g ⊆ List.range cs.length := by
  obtain ⟨x, hx, rfl⟩ := groups_mem_iff.mp hg
  exact comp_subset hx

theorem mergeStage_out_mem {mt tol : Nat} {tiles : List Tile} {cs : List Cont}
    {r : Cont} (hr : r ∈ (mergeStage mt tol tiles cs).1) :
    (∃ i, i < cs.length ∧ r = passRec tol tiles (cs.getD i default)) ∨
      (r.tileId = none ∧ r.touches = none ∧ r.bbox = some (bboxOf r.coords)) := by
  rw [mergeStage_fst, List.mem_flatMap] at hr
  obtain ⟨g, hg, hrg⟩ := hr
  have hsub : g ⊆ List.range cs.length := compsOf_subset hg
  by_cases hlen : g.length ≤ 1
  · rw [emitGroup, if_pos hlen, List.mem_map] at hrg
    obtain ⟨i, hig, rfl⟩ := hrg
    exact Or.inl ⟨i, List.mem_range.mp (hsub hig), rfl⟩
  · rw [emitGroup, if_neg hlen] at hrg
    cases hstitch : stitchGroup mt (g.map fun i => cs.getD i default) with
    | ok pr =>
      rw [hstitch] at hrg
      rw [List.mem_singleton.mp hrg]
      have hspec := stitchGroup_ok_spec hstitch
      exact Or.inr hspec
    | error e =>
      rw [hstitch, List.mem_map] at hrg
      obtain ⟨i, hig, rfl⟩ := hrg
      exact Or.inl ⟨i, List.mem_range.mp (hsub hig), rfl⟩

theorem mergeStage_out_mem_min3 {mt tol : Nat} {tiles : List Tile} {cs : List Cont}
    {r : Cont} (h3 : ∀ c ∈ cs, 3 ≤ c.coords.length)
    (hr : r ∈ (mergeStage mt tol tiles cs).1) :
    (∃ i, i < cs.length ∧
        comp (adjOf (validPairs mt tol tiles cs)) (List.range cs.length) i = [i] ∧
        r = passRec tol tiles (cs.getD i default)) ∨
      (r.tileId = none ∧ r.touches = none ∧ r.bbox = some (bboxOf r.coords)) := by
  rw [mergeStage_fst, List.mem_flatMap] at hr
  obtain ⟨g, hg, hrg⟩ := hr
  have hsub : g ⊆ List.range cs.length := compsOf_subset hg
  obtain ⟨x, hx, hgx⟩ := groups_mem_iff.mp hg
  by_cases hlen : g.length ≤ 1
  · rw [emitGroup, if_pos hlen, List.mem_map] at hrg
    obtain ⟨i, hig, rfl⟩ := hrg
    have hxg : x ∈ g := hgx ▸ self_mem_comp hx
    have hgsing : g = [x] := eq_singleton_of_len_le_one hlen hxg
    have hix : i = x := List.mem_singleton.mp (hgsing ▸ hig)
    refine Or.inl ⟨i, List.mem_range.mp (hsub hig), ?_, rfl⟩
    rw [hix, hgx, hgsing]
  · rw [emitGroup, if_neg hlen] at hrg
    have hdeg : ∀ c ∈ (g.map fun i => cs.getD i default), 3 ≤ c.coords.length := by
      intro c hc
      obtain ⟨i, hig, rfl⟩ := List.mem_map.mp hc
      exact h3 _ (getD_mem (List.mem_range.mp (hsub hig)) default)
    rw [stitchGroup_not_deg hdeg] at hrg
    rw [List.mem_singleton.mp hrg]
    exact Or.inr ⟨rfl, rfl, rfl⟩


/-! ### Idempotence of the merge stage -/

theorem validPairs_out_nil (mt tol : Nat) (tiles : List Tile) (cs : List Cont)
    (h3 : ∀ c ∈ cs, 3 ≤ c.coords.length) :
    validPairs mt tol tiles ((mergeStage mt tol tiles cs).1) = [] := by
  rw [validPairs, validFilter]
  apply List.filter_eq_nil_iff.mpr
  intro pr hpr
  obtain ⟨p, q⟩ := pr
  obtain ⟨e, he, hc⟩ := mem_allCandidates.mp hpr
  obtain ⟨hp, hq, hbb⟩ := mem_candidatesForEdge.mp hc
  rw [mem_facingIdx] at hp hq
  obtain ⟨hplen, hptile, hptch⟩ := hp
  obtain ⟨hqlen, hqtile, hqtch⟩ := hq
  have hpR := getD_mem hplen (Inhabited.default (α := Cont))
  have hqR := getD_mem hqlen (Inhabited.default (α := Cont))
  rcases mergeStage_out_mem_min3 h3 hpR with ⟨i, hilen, hisng, hieq⟩ | ⟨htid, _, _⟩
  swap
  · rw [htid] at hptile
    cases hptile
  rcases mergeStage_out_mem_min3 h3 hqR with ⟨j, hjlen, _, hjeq⟩ | ⟨htid, _, _⟩
  swap
  · rw [htid] at hqtile
    cases hqtile
  intro hval
  rw [hieq] at hptile hptch
  rw [hjeq] at hqtile
  rw [passRec_tileId] at hptile hqtile
  rw [contTouches_passRec] at hptch
  rw [hjeq, contTouches_passRec] at hqtch
  rw [hieq, hjeq, validatePair_passRec] at hval
  rw [hieq, hjeq, bboxNear_passRec] at hbb
  have hchain : (i, j) ∈ candidatesForEdge mt tol tiles cs e :=
    mem_candidatesForEdge.mpr
      ⟨mem_facingIdx.mpr ⟨hilen, hptile, hptch⟩,
       mem_facingIdx.mpr ⟨hjlen, hqtile, hqtch⟩, hbb⟩
  have hvalid_cs : (i, j) ∈ validPairs mt tol tiles cs :=
    mem_validPairs.mpr ⟨mem_allCandidates.mpr ⟨e, he, hchain⟩, hval⟩
  have hadj : adjOf (validPairs mt tol tiles cs) i j = true := adjOf_of_mem hvalid_cs
  have hjmem : j ∈ comp (adjOf (validPairs mt tol tiles cs)) (List.range cs.length) i := by
    rw [← comp_fix (List.nodup_range _) (List.mem_range.mpr hilen)]
    exact mem_stepOnce.mpr
      ⟨List.mem_range.mpr hjlen,
       Or.inr ⟨i, self_mem_comp (List.mem_range.mpr hilen), hadj⟩⟩
  rw [hisng, List.mem_singleton] at hjmem
  have hne := (sharedEdges_spec he).1
  apply hne
  rw [hjmem] at hqtile
  rw [hptile] at hqtile
  exact (Option.some.injEq ..).mp hqtile

theorem map_self_of_mem {β : Type} {f : β → β} {l : List β}
    (h : ∀ a ∈ l, f a = a) : l.map f = l := by
  induction l with
  | nil => rfl
  | cons a t ih =>
    rw [List.map_cons, h a (List.mem_cons_self a t),
      ih fun b hb => h b (List.mem_cons_of_mem a hb)]

theorem mergeStage_idem (mt tol : Nat) (tiles : List Tile) (cs : List Cont)
    (h3 : ∀ c ∈ cs, 3 ≤ c.coords.length) :
    mergeStage mt tol tiles ((mergeStage mt tol tiles cs).1) =
      ((mergeStage mt tol tiles cs).1, []) := by
  rw [mergeStage_no_valid (validPairs_out_nil mt tol tiles cs h3)]
  rw [Prod.mk.injEq]
  refine ⟨?_, rfl⟩
  have hfix : ∀ r ∈ (mergeStage mt tol tiles cs).1,
      passRec tol tiles r = r := by
    intro r hr
    rcases mergeStage_out_mem hr with ⟨i, _, rfl⟩ | ⟨htid, htch, hbb⟩
    · exact passRec_idem tol tiles _
    · exact passRec_of_stitched tol tiles htid hbb htch
  exact map_self_of_mem hfix


/-! ### The validator threshold is exactly buffered-boundary intersection -/

theorem natAbs_le_iff_cast (a : Int) (n : Nat) :
    a.natAbs ≤ n ↔ |(a : ℚ)| ≤ (n : ℚ) := by
  rw [← Nat.cast_le (α := ℚ), Int.cast_natAbs, Int.cast_abs]

theorem chebZ_le_iff_cast (p q : Pt) (n : Nat) :
    chebZ p q ≤ n ↔
      |(p.1 : ℚ) - (q.1 : ℚ)| ≤ (n : ℚ) ∧ |(p.2 : ℚ) - (q.2 : ℚ)| ≤ (n : ℚ) := by
  rw [chebZ, Nat.max_le, natAbs_le_iff_cast, natAbs_le_iff_cast]
  push_cast
  exact Iff.rfl

theorem closeContours_iff_buffered (mt : Nat) (c d : List Pt) :
    closeContours mt c d = true ↔ BufferedIntersect mt c d := by
  rw [closeContours]
  simp only [List.any_eq_true, decide_eq_true_eq]
  constructor
  · rintro ⟨p, hp, q, hq, hle⟩
    obtain ⟨h1, h2⟩ := (chebZ_le_iff_cast p q mt).mp hle
    refine ⟨(((p.1 : ℚ) + (q.1 : ℚ)) / 2, ((p.2 : ℚ) + (q.2 : ℚ)) / 2),
      ⟨p, hp, ?_⟩, ⟨q, hq, ?_⟩⟩
    · rw [chebQ]
      apply max_le
      · rw [show ((p.1 : ℚ) + (q.1 : ℚ)) / 2 - (p.1 : ℚ) = -(((p.1 : ℚ) - (q.1 : ℚ)) / 2)
          by ring, abs_neg, abs_div, abs_two]
        linarith
      · rw [show ((p.2 : ℚ) + (q.2 : ℚ)) / 2 - (p.2 : ℚ) = -(((p.2 : ℚ) - (q.2 : ℚ)) / 2)
          by ring, abs_neg, abs_div, abs_two]
        linarith
    · rw [chebQ]
      apply max_le
      · rw [show ((p.1 : ℚ) + (q.1 : ℚ)) / 2 - (q.1 : ℚ) = ((p.1 : ℚ) - (q.1 : ℚ)) / 2
          by ring, abs_div, abs_two]
        linarith
      · rw [show ((p.2 : ℚ) + (q.2 : ℚ)) / 2 - (q.2 : ℚ) = ((p.2 : ℚ) - (q.2 : ℚ)) / 2
          by ring, abs_div, abs_two]
        linarith
  · rintro ⟨m, ⟨p, hp, hmp⟩, ⟨q, hq, hmq⟩⟩
    refine ⟨p, hp, q, hq, ?_⟩
    rw [chebQ] at hmp hmq
    obtain ⟨hmp1, hmp2⟩ := max_le_iff.mp hmp
    obtain ⟨hmq1, hmq2⟩ := max_le_iff.mp hmq
    rw [chebZ_le_iff_cast]
    constructor
    · have ht := abs_sub_le (p.1 : ℚ) m.1 (q.1 : ℚ)
      calc |(p.1 : ℚ) - (q.1 : ℚ)| ≤ |m.1 - (p.1 : ℚ)| + |m.1 - (q.1 : ℚ)| := by
            rw [abs_sub_comm m.1 (p.1 : ℚ)]
            exact ht
        _ ≤ (mt : ℚ) / 2 + (mt : ℚ) / 2 := add_le_add hmp1 hmq1
        _ = (mt : ℚ) := add_halves _
    · have ht := abs_sub_le (p.2 : ℚ) m.2 (q.2 : ℚ)
      calc |(p.2 : ℚ) - (q.2 : ℚ)| ≤ |m.2 - (p.2 : ℚ)| + |m.2 - (q.2 : ℚ)| := by
            rw [abs_sub_comm m.2 (p.2 : ℚ)]
            exact ht
        _ ≤ (mt : ℚ) / 2 + (mt : ℚ) / 2 := add_le_add hmp2 hmq2
        _ = (mt : ℚ) := add_halves _


/-! ### Candidate-comparison complexity -/

theorem contTouches_hasAnyFlag {tol : Nat} {tiles : List Tile} {c : Cont} {s : Side}
    (h : contTouches tol tiles c s = true) : hasAnyFlag tol tiles c = true := by
  rw [contTouches] at h
  rw [hasAnyFlag]
  cases hf : flagsFor tol tiles c with
  | none => rw [hf] at h; cases h
  | some f =>
    rw [hf] at h
    cases s <;> simp only [touchesSide] at h <;> simp [h]

theorem contTouches_of_noflag {tol : Nat} {tiles : List Tile} {c : Cont}
    (h : hasAnyFlag tol tiles c = false) (s : Side) :
    contTouches tol tiles c s = false := by
  cases h2 : contTouches tol tiles c s with
  | false => rfl
  | true => rw [contTouches_hasAnyFlag h2] at h; cases h

theorem facing_sublist_boundary (tol : Nat) (tiles : List Tile) (cs : List Cont)
    (tid : Nat) (s : Side) :
    List.Sublist (facingIdx tol tiles cs tid s) (boundaryIdx tol tiles cs tid) := by
  apply List.monotone_filter_right
  intro i hi
  rw [Bool.and_eq_true] at hi ⊢
  exact ⟨hi.1, contTouches_hasAnyFlag hi.2⟩

theorem comparisonsCount_le (tol : Nat) (tiles : List Tile) (cs : List Cont) (k d : Nat)
    (hk : ∀ t ∈ tiles, (boundaryIdx tol tiles cs t.id).length ≤ k)
    (hd : ∀ i ∈ List.range tiles.length, (edgesFrom tol tiles i).length ≤ d) :
    comparisonsCount tol tiles cs ≤ tiles.length * d * (k * k) := by
  have hfk : ∀ e ∈ sharedEdges tol tiles, ∀ s : Side,
      ∀ tid, tid = e.a ∨ tid = e.b → (facingIdx tol tiles cs tid s).length ≤ k := by
    intro e he s tid htid
    obtain ⟨_, ⟨ta, hta, hida⟩, ⟨tb, htb, hidb⟩⟩ := sharedEdges_spec he
    have hsub := (facing_sublist_boundary tol tiles cs tid s).length_le
    rcases htid with rfl | rfl
    · exact le_trans hsub (hida ▸ hk ta hta)
    · exact le_trans hsub (hidb ▸ hk tb htb)
  have h1 : comparisonsCount tol tiles cs ≤ (sharedEdges tol tiles).length * (k * k) := by
    rw [comparisonsCount]
    have hentry : ∀ x ∈ (sharedEdges tol tiles).map fun e =>
        (facingIdx tol tiles cs e.a e.sideA).length *
          (facingIdx tol tiles cs e.b (opposite e.sideA)).length, x ≤ k * k := by
      intro x hx
      obtain ⟨e, he, rfl⟩ := List.mem_map.mp hx
      exact Nat.mul_le_mul (hfk e he e.sideA e.a (Or.inl rfl))
        (hfk e he (opposite e.sideA) e.b (Or.inr rfl))
    have hs := List.sum_le_card_nsmul _ (k * k) hentry
    simpa [List.length_map, smul_eq_mul] using hs
  have h2 : (sharedEdges tol tiles).length ≤ tiles.length * d := by
    rw [sharedEdges, List.length_flatMap]
    have hentry : ∀ x ∈ (List.range tiles.length).map fun i =>
        (edgesFrom tol tiles i).length, x ≤ d := by
      intro x hx
      obtain ⟨i, hi, rfl⟩ := List.mem_map.mp hx
      exact hd i hi
    have hs := List.sum_le_card_nsmul _ d hentry
    simpa [List.length_map, List.length_range, smul_eq_mul] using hs
  calc comparisonsCount tol tiles cs ≤ (sharedEdges tol tiles).length * (k * k) := h1
    _ ≤ tiles.length * d * (k * k) := Nat.mul_le_mul_right _ h2

theorem facingIdx_append_interior (tol : Nat) (tiles : List Tile) (cs extra : List Cont)
    (tid : Nat) (s : Side)
    (hint : ∀ c ∈ extra, hasAnyFlag tol tiles c = false) :
    facingIdx tol tiles (cs ++ extra) tid s = facingIdx tol tiles cs tid s := by
  rw [facingIdx, facingIdx, List.length_append, List.range_add, List.filter_append]
  have hp1 : (List.range cs.length).filter (fun i =>
        decide (((cs ++ extra).getD i default).tileId = some tid) &&
          contTouches tol tiles ((cs ++ extra).getD i default) s) =
      (List.range cs.length).filter fun i =>
        decide ((cs.getD i default).tileId = some tid) &&
          contTouches tol tiles (cs.getD i default) s := by
    apply List.filter_congr
    intro i hi
    rw [List.getD_append cs extra default i (List.mem_range.mp hi)]
  have hp2 : (((List.range extra.length).map fun i => cs.length + i).filter fun i =>
        decide (((cs ++ extra).getD i default).tileId = some tid) &&
          contTouches tol tiles ((cs ++ extra).getD i default) s) = [] := by
    apply List.filter_eq_nil_iff.mpr
    intro i hi
    obtain ⟨j, hj, rfl⟩ := List.mem_map.mp hi
    rw [List.mem_range] at hj
    have hget : (cs ++ extra).getD (cs.length + j) default = extra.getD j default := by
      rw [List.getD_append_right cs extra default (cs.length + j) (Nat.le_add_right _ _)]
      congr 1
      omega
    rw [hget, contTouches_of_noflag (hint _ (getD_mem hj default)) s]
    simp
  rw [hp1, hp2, List.append_nil]

theorem comparisonsCount_append_interior (tol : Nat) (tiles : List Tile)
    (cs extra : List Cont)
    (hint : ∀ c ∈ extra, hasAnyFlag tol tiles c = false) :
    comparisonsCount tol tiles (cs ++ extra) = comparisonsCount tol tiles cs := by
  rw [comparisonsCount, comparisonsCount]
  congr 1
  apply List.map_congr_left
  intro e _
  rw [facingIdx_append_interior tol tiles cs extra e.a e.sideA hint,
    facingIdx_append_interior tol tiles cs extra e.b (opposite e.sideA) hint]


/-! ### Output-row serialization -/

theorem joinComma_shift (t : List String) (a : String) :
    joinComma (a :: t) = a ++ joinComma ("" :: t) := by
  cases t with
  | nil => rw [joinComma, joinComma, String.append_empty]
  | cons b u =>
    show a ++ "," ++ joinComma (b :: u) = a ++ ("" ++ "," ++ joinComma (b :: u))
    rw [String.empty_append, String.append_assoc]

theorem intercalate_go_joinComma (as : List String) (acc : String) :
    String.intercalate.go acc "," as = acc ++ joinComma ("" :: as) := by
  induction as generalizing acc with
  | nil =>
    show acc = acc ++ joinComma [""]
    rw [joinComma, String.append_empty]
  | cons a t ih =>
    show String.intercalate.go (acc ++ "," ++ a) "," t = _
    rw [ih]
    rw [show joinComma ("" :: a :: t) = "" ++ "," ++ joinComma (a :: t) from rfl]
    rw [String.empty_append, joinComma_shift t a]
    rw [String.append_assoc, String.append_assoc]

theorem joinComma_eq_intercalate (l : List String) :
    joinComma l = String.intercalate "," l := by
  cases l with
  | nil => rfl
  | cons a t =>
    show joinComma (a :: t) = String.intercalate.go a "," t
    rw [intercalate_go_joinComma, joinComma_shift]


/-! ### Raster adjacency and re-extraction facts -/

theorem ptAdj_symm (U : List Pt) : ∀ p q, ptAdj U p q = ptAdj U q p := by
  intro p q
  rw [ptAdj, ptAdj, chebZ_comm]
  rw [Bool.and_assoc, Bool.and_assoc, Bool.and_comm (decide (p ∈ U)) (decide (q ∈ U))]

theorem ptAdj_target {U : List Pt} {p q : Pt} (h : ptAdj U p q = true) : q ∈ U := by
  rw [ptAdj, Bool.and_eq_true] at h
  exact of_decide_eq_true h.2

theorem largestOf_singleton {g : List Pt} (hg : g ≠ []) : largestOf [g] = g := by
  show (if ([] : List Pt).length < g.length then g else []) = g
  rw [if_pos]
  exact List.length_pos.mpr hg

theorem reextract_single_covers {mt : Nat} {members : List Cont} {g : List Pt}
    (hre : reextract mt members = [g]) {p : Pt}
    (hp : p ∈ members.flatMap fun c => c.coords) : p ∈ g := by
  have hU : p ∈ closingPts ((mt + 1) / 2) ((members.flatMap fun c => c.coords).dedup) :=
    closing_extensive (List.mem_dedup.mpr hp)
  have hre2 : groupsOf
      (ptAdj (closingPts ((mt + 1) / 2) ((members.flatMap fun c => c.coords).dedup)))
      (closingPts ((mt + 1) / 2) ((members.flatMap fun c => c.coords).dedup)) = [g] := hre
  have hpart := (groups_partition (closing_nodup _ _)
    (ptAdj_symm _) (fun x y h => ptAdj_target h) hU).1
  rw [hre2] at hpart
  have := List.mem_singleton.mp hpart.1
  rw [← this]
  exact hpart.2

/-! ### The two-tile straddling-contour scenario -/

theorem two_tile_merge (mt tol : Nat) (t1 t2 : Tile) (A B : Cont) (s : Side)
    (hedges : sharedEdges tol [t1, t2] = [⟨t1.id, t2.id, s⟩])
    (hids : t1.id ≠ t2.id)
    (hAtile : A.tileId = some t1.id)
    (hBtile : B.tileId = some t2.id)
    (hAtouch : touchesSide (touchDetect tol t1 A.coords) s = true)
    (hBtouch : touchesSide (touchDetect tol t2 B.coords) (opposite s) = true)
    (hnear : bboxNear mt A B s = true)
    (hgroup : A.group = B.group)
    (hclose : closeContours mt A.coords B.coords = true)
    (hA3 : 3 ≤ A.coords.length) (hB3 : 3 ≤ B.coords.length)
    (hconn : (reextract mt [A, B]).length = 1) :
    ∃ rec bb, (mergeStage mt tol [t1, t2] [A, B]).1 = [rec] ∧
      rec.touches = none ∧ rec.bbox = some bb ∧
      (∀ p ∈ A.coords, pointInBB p bb) ∧ ∀ p ∈ B.coords, pointInBB p bb := by
  -- boundary flags of the two contours
  have hflagsA : flagsFor tol [t1, t2] A = some (touchDetect tol t1 A.coords) := by
    rw [flagsFor, hAtile]
    show (([t1, t2].find? fun t => decide (t.id = t1.id)).map
      fun t => touchDetect tol t A.coords) = _
    rw [List.find?_cons_of_pos _ (by simp)]
    rfl
  have hflagsB : flagsFor tol [t1, t2] B = some (touchDetect tol t2 B.coords) := by
    rw [flagsFor, hBtile]
    show (([t1, t2].find? fun t => decide (t.id = t2.id)).map
      fun t => touchDetect tol t B.coords) = _
    rw [List.find?_cons_of_neg _ (by simp [hids]), List.find?_cons_of_pos _ (by simp)]
    rfl
  have hctA : contTouches tol [t1, t2] A s = true := by
    rw [contTouches, hflagsA]
    exact hAtouch
  have hctB : contTouches tol [t1, t2] B (opposite s) = true := by
    rw [contTouches, hflagsB]
    exact hBtouch
  -- the two facing pools
  have hF1 : facingIdx tol [t1, t2] [A, B] t1.id s = [0] := by
    rw [facingIdx]
    rw [show List.range ([A, B] : List Cont).length = [0, 1] from rfl]
    rw [List.filter_cons, List.filter_cons, List.filter_nil]
    simp only [List.getD_cons_zero, List.getD_cons_succ]
    rw [if_pos (by simp [hAtile, hctA]), if_neg (by simp [hBtile, Ne.symm hids])]
  have hF2 : facingIdx tol [t1, t2] [A, B] t2.id (opposite s) = [1] := by
    rw [facingIdx]
    rw [show List.range ([A, B] : List Cont).length = [0, 1] from rfl]
    rw [List.filter_cons, List.filter_cons, List.filter_nil]
    simp only [List.getD_cons_zero, List.getD_cons_succ]
    rw [if_neg (by simp [hAtile, hids]), if_pos (by simp [hBtile, hctB])]
  -- the single candidate and validated pair
  have hcand : allCandidates mt tol [t1, t2] [A, B] = [(0, 1)] := by
    rw [allCandidates, hedges, List.flatMap_cons, List.flatMap_nil, List.append_nil]
    rw [candidatesForEdge]
    show ((facingIdx tol [t1, t2] [A, B] t1.id s).flatMap fun i =>
      (facingIdx tol [t1, t2] [A, B] t2.id (opposite s)).filterMap fun j =>
        if bboxNear mt (([A, B] : List Cont).getD i default)
            (([A, B] : List Cont).getD j default) s then some (i, j)
        else none) = [(0, 1)]
    rw [hF1, hF2, List.flatMap_cons, List.flatMap_nil, List.append_nil]
    rw [List.filterMap_cons, List.filterMap_nil]
    simp only [List.getD_cons_zero, List.getD_cons_succ]
    rw [if_pos hnear]
  have hvalid : validPairs mt tol [t1, t2] [A, B] = [(0, 1)] := by
    rw [validPairs, validFilter, hcand, List.filter_cons, List.filter_nil]
    rw [if_pos (by
      simp only [List.getD_cons_zero, List.getD_cons_succ]
      rw [validatePair]
      simp [hgroup, hclose])]
  have hcomps : compsOf mt tol [t1, t2] [A, B] = [[0, 1]] := by
    show groupsOf (adjOf (validPairs mt tol [t1, t2] [A, B]))
      (List.range ([A, B] : List Cont).length) = [[0, 1]]
    rw [hvalid, show List.range ([A, B] : List Cont).length = [0, 1] from rfl]
    decide
  refine ⟨{ group := (([A, B] : List Cont).headD default).group,
            color := (([A, B] : List Cont).headD default).color,
            tileId := none, coords := largestOf (reextract mt [A, B]),
            hasHoles := false,
            bbox := some (bboxOf (largestOf (reextract mt [A, B]))),
            touches := none },
          bboxOf (largestOf (reextract mt [A, B])), ?_, rfl, rfl, ?_, ?_⟩
  · rw [mergeStage_fst, hcomps, List.flatMap_cons, List.flatMap_nil, List.append_nil]
    rw [emitGroup, if_neg (by decide)]
    rw [show (([0, 1] : List Nat).map fun i => ([A, B] : List Cont).getD i default) =
      [A, B] from rfl]
    rw [stitchGroup_not_deg (by
      intro c hc
      rcases List.mem_cons.mp hc with h | h
      · rw [h]; exact hA3
      · rw [List.mem_singleton.mp h]; exact hB3)]
  · intro p hp
    obtain ⟨g, hg⟩ := List.length_eq_one.mp hconn
    have hgmem : g ∈ reextract mt [A, B] := by
      rw [hg]
      exact List.mem_singleton.mpr rfl
    have hcov := reextract_single_covers hg (p := p) (by
      rw [List.flatMap_cons, List.flatMap_cons, List.flatMap_nil, List.append_nil]
      exact List.mem_append_left _ hp)
    rw [hg, largestOf_singleton (groups_ne_nil hgmem)]
    exact mem_pointInBB_bboxOf hcov
  · intro p hp
    obtain ⟨g, hg⟩ := List.length_eq_one.mp hconn
    have hgmem : g ∈ reextract mt [A, B] := by
      rw [hg]
      exact List.mem_singleton.mpr rfl
    have hcov := reextract_single_covers hg (p := p) (by
      rw [List.flatMap_cons, List.flatMap_cons, List.flatMap_nil, List.append_nil]
      exact List.mem_append_right _ hp)
    rw [hg, largestOf_singleton (groups_ne_nil hgmem)]
    exact mem_pointInBB_bboxOf hcov


/-! ### Error isolation and fallback -/

theorem extractStage_fst (inputs : List TileInput) :
    (extractStage inputs).1 = inputs.flatMap fun ti =>
      match ti.contoursE with
      | .ok cs => cs.map fun c => { c with tileId := some ti.tile.id }
      | .error _ => [] := rfl

theorem extractStage_snd (inputs : List TileInput) :
    (extractStage inputs).2 = inputs.flatMap fun ti =>
      match ti.contoursE with
      | .ok _ => []
      | .error e => ["warning: tile skipped: " ++ e] := rfl

theorem run_fst (mt tol : Nat) (inputs : List TileInput) :
    (run mt tol inputs).1 =
      (mergeStage mt tol (inputs.map fun ti => ti.tile) (extractStage inputs).1).1 := rfl

theorem run_snd (mt tol : Nat) (inputs : List TileInput) :
    (run mt tol inputs).2 =
      (extractStage inputs).2 ++
        (mergeStage mt tol (inputs.map fun ti => ti.tile) (extractStage inputs).1).2 := rfl

theorem run_error_tile (mt tol : Nat) (pre post : List TileInput) (t : Tile)
    (msg : String) :
    (run mt tol (pre ++ ⟨t, .error msg⟩ :: post)).1 =
        (run mt tol (pre ++ ⟨t, .ok []⟩ :: post)).1 ∧
      ("warning: tile skipped: " ++ msg) ∈ (run mt tol (pre ++ ⟨t, .error msg⟩ :: post)).2 := by
  constructor
  · rw [run_fst, run_fst]
    have htiles : (pre ++ (⟨t, .error msg⟩ : TileInput) :: post).map (fun ti => ti.tile) =
        (pre ++ (⟨t, .ok []⟩ : TileInput) :: post).map fun ti => ti.tile := by
      rw [List.map_append, List.map_append, List.map_cons, List.map_cons]
    have hconts : (extractStage (pre ++ (⟨t, .error msg⟩ : TileInput) :: post)).1 =
        (extractStage (pre ++ (⟨t, .ok []⟩ : TileInput) :: post)).1 := by
      rw [extractStage_fst, extractStage_fst]
      rw [List.flatMap_append, List.flatMap_append, List.flatMap_cons, List.flatMap_cons]
      rfl
    rw [htiles, hconts]
  · rw [run_snd]
    apply List.mem_append_left
    rw [extractStage_snd]
    exact List.mem_flatMap.mpr
      ⟨⟨t, .error msg⟩, List.mem_append_right _ (List.mem_cons_self _ _),
       List.mem_singleton.mpr rfl⟩

theorem mergeStage_fallback (mt tol : Nat) (tiles : List Tile) (cs : List Cont)
    {g : List Nat} (hg : g ∈ compsOf mt tol tiles cs)
    (hlen : 2 ≤ g.length)
    (hdeg : ∃ i ∈ g, (cs.getD i default).coords.length < 3) :
    (∀ i ∈ g, passRec tol tiles (cs.getD i default) ∈ (mergeStage mt tol tiles cs).1) ∧
      "GeometryError: degenerate contour" ∈ (mergeStage mt tol tiles cs).2 := by
  have hany : ((g.map fun i => cs.getD i default).any
      fun c => decide (c.coords.length < 3)) = true := by
    rw [List.any_eq_true]
    obtain ⟨i, hig, hi3⟩ := hdeg
    exact ⟨_, List.mem_map.mpr ⟨i, hig, rfl⟩, decide_eq_true hi3⟩
  have hstitch : stitchGroup mt (g.map fun i => cs.getD i default) =
      .error "GeometryError: degenerate contour" := by
    rw [stitchGroup, if_pos hany]
  have hemit : emitGroup mt tol tiles cs g =
      (g.map fun i => passRec tol tiles (cs.getD i default),
       ["GeometryError: degenerate contour"]) := by
    rw [emitGroup, if_neg (by omega), hstitch]
  constructor
  · intro i hig
    rw [mergeStage_fst]
    exact List.mem_flatMap.mpr ⟨g, hg, by
      rw [hemit]
      exact List.mem_map.mpr ⟨i, hig, rfl⟩⟩
  · rw [mergeStage_snd]
    exact List.mem_flatMap.mpr ⟨g, hg, by
      rw [hemit]
      exact List.mem_singleton.mpr rfl⟩

/-! ### Keep-largest selection -/

theorem largestOf_foldl (l : List (List Pt)) :
    ∀ acc : List Pt,
      ((l.foldl (fun best g => if best.length < g.length then g else best) acc) ∈ l ∨
        l.foldl (fun best g => if best.length < g.length then g else best) acc = acc) ∧
      acc.length ≤ (l.foldl (fun best g => if best.length < g.length then g else best) acc).length ∧
      ∀ g ∈ l, g.length ≤
        (l.foldl (fun best g => if best.length < g.length then g else best) acc).length := by
  induction l with
  | nil => exact fun acc => ⟨Or.inr rfl, Nat.le_refl _, by simp⟩
  | cons a t ih =>
    intro acc
    have hstep : acc.length ≤ (if acc.length < a.length then a else acc).length := by
      split
      · omega
      · exact Nat.le_refl _
    have hstepa : a.length ≤ (if acc.length < a.length then a else acc).length := by
      split
      · exact Nat.le_refl _
      · omega
    obtain ⟨hmem, hlen, hcov⟩ := ih (if acc.length < a.length then a else acc)
    refine ⟨?_, ?_, ?_⟩
    · rcases hmem with h | h
      · exact Or.inl (List.mem_cons_of_mem a h)
      · show (t.foldl (fun best g => if best.length < g.length then g else best)
            (if acc.length < a.length then a else acc)) ∈ a :: t ∨
          (t.foldl (fun best g => if best.length < g.length then g else best)
            (if acc.length < a.length then a else acc)) = acc
        rw [h]
        split
        · exact Or.inl (List.mem_cons_self a t)
        · exact Or.inr rfl
    · exact Nat.le_trans hstep hlen
    · intro g hgm
      rcases List.mem_cons.mp hgm with h | h
      · rw [h]
        exact Nat.le_trans hstepa hlen
      · exact hcov g h


theorem largestOf_spec {l : List (List Pt)} (hne : l ≠ []) (hs : ∀ g ∈ l, g ≠ []) :
    largestOf l ∈ l ∧ ∀ g ∈ l, g.length ≤ (largestOf l).length := by
  obtain ⟨hmem, _, hcov⟩ := largestOf_foldl l []
  refine ⟨?_, hcov⟩
  rcases hmem with h | h
  · exact h
  · exfalso
    obtain ⟨a, t, rfl⟩ : ∃ a t, l = a :: t := by
      cases l with
      | nil => exact absurd rfl hne
      | cons a t => exact ⟨a, t, rfl⟩
    have hca := hcov a (List.mem_cons_self _ _)
    rw [h] at hca
    exact hs a (List.mem_cons_self _ _) (List.length_eq_zero.mp (Nat.le_zero.mp hca))

/-! ### The claims -/

/-- Claim C1: for a run on exactly two tiles sharing one edge, with a single
contour of one class on each side straddling that edge within `merge_thresh`
pixels (same class, facing touch flags, bounding boxes near, boundaries
within `merge_thresh`, both non-degenerate, and the closed raster re-extracts
to a single contour, i.e. the two pieces are truly one structure), the output
collection is exactly one merged contour, with unset per-side flags, whose
bounding box spans both original pieces (it contains every point of both);
no separate per-tile contour is emitted. -/
theorem c1_single_straddling_contour_merged (mt tol : Nat) (t1 t2 : Tile)
    (A B : Cont) (s : Side)
    (hedges : sharedEdges tol [t1, t2] = [⟨t1.id, t2.id, s⟩])
    (hids : t1.id ≠ t2.id)
    (hAtile : A.tileId = some t1.id)
    (hBtile : B.tileId = some t2.id)
    (hAtouch : touchesSide (touchDetect tol t1 A.coords) s = true)
    (hBtouch : touchesSide (touchDetect tol t2 B.coords) (opposite s) = true)
    (hnear : bboxNear mt A B s = true)
    (hgroup : A.group = B.group)
    (hclose : closeContours mt A.coords B.coords = true)
    (hA3 : 3 ≤ A.coords.length) (hB3 : 3 ≤ B.coords.length)
    (hconn : (reextract mt [A, B]).length = 1) :
    ∃ rec bb, (mergeStage mt tol [t1, t2] [A, B]).1 = [rec] ∧
      rec.touches = none ∧ rec.bbox = some bb ∧
      (∀ p ∈ A.coords, pointInBB p bb) ∧ ∀ p ∈ B.coords, pointInBB p bb :=
  two_tile_merge mt tol t1 t2 A B s hedges hids hAtile hBtile hAtouch hBtouch
    hnear hgroup hclose hA3 hB3 hconn

/-- Claim C2: grouping by the Connectivity Grouper is the connected-component
(equivalence-closure) relation over the validated pairs: validated chains
A-B, B-C put A and C in one group even when A-C never validated; every
contour index belongs to exactly one group; and group membership depends
only on the set of validated pairs, not on their order. -/
theorem c2_grouping_is_connected_components (E : List (Nat × Nat)) (n : Nat)
    (hE : ∀ e ∈ E, e.1 < n ∧ e.2 < n) :
    (∀ a b c : Nat, (a, b) ∈ E → (b, c) ∈ E →
        c ∈ comp (adjOf E) (List.range n) a) ∧
      (∀ x ∈ List.range n,
        ∃ g, (g ∈ groupsOf (adjOf E) (List.range n) ∧ x ∈ g) ∧
          ∀ g2, g2 ∈ groupsOf (adjOf E) (List.range n) → x ∈ g2 → g2 = g) ∧
      ∀ E2 : List (Nat × Nat), (∀ pr : Nat × Nat, pr ∈ E ↔ pr ∈ E2) →
        ∀ a, comp (adjOf E) (List.range n) a = comp (adjOf E2) (List.range n) a := by
  have htgt : ∀ x y, adjOf E x y = true → y ∈ List.range n := by
    intro x y h
    rcases adjOf_true_mem h with h2 | h2
    · exact List.mem_range.mpr (hE _ h2).2
    · exact List.mem_range.mpr (hE _ h2).1
  refine ⟨?_, ?_, ?_⟩
  · intro a b c hab hbc
    have ha : a ∈ List.range n := List.mem_range.mpr (hE _ hab).1
    apply closed_reach (List.nodup_range _) ha htgt
    exact Relation.ReflTransGen.head (adjOf_of_mem hab)
      (Relation.ReflTransGen.single (adjOf_of_mem hbc))
  · intro x hx
    obtain ⟨⟨hg1, hg2⟩, huniq⟩ :=
      groups_partition (List.nodup_range _) (adjOf_symm E) htgt hx
    exact ⟨comp (adjOf E) (List.range n) x, ⟨hg1, hg2⟩, huniq⟩
  · intro E2 hEE a
    exact comp_congr (adjOf_congr hEE) a

/-- Claim C3: when no candidate pair validates (no two tiles have contours of
the same class meeting at a shared boundary), the merge stage is a no-op: the
output is the plain concatenation of the per-tile contours (as pass-through
records; literally the input list when the inputs already carry their
bounding boxes and flags). -/
theorem c3_no_shared_contours_noop (mt tol : Nat) (tiles : List Tile)
    (cs : List Cont)
    (hv : ∀ pr ∈ allCandidates mt tol tiles cs,
      validatePair mt (cs.getD pr.1 default) (cs.getD pr.2 default) = false) :
    (mergeStage mt tol tiles cs).1 = cs.map (passRec tol tiles) ∧
      ((∀ c ∈ cs, passRec tol tiles c = c) → (mergeStage mt tol tiles cs).1 = cs) := by
  have hnil : validPairs mt tol tiles cs = [] := by
    rw [validPairs, validFilter]
    apply List.filter_eq_nil_iff.mpr
    intro pr hpr
    rw [hv pr hpr]
    exact Bool.false_ne_true
  have hms := mergeStage_no_valid hnil
  constructor
  · rw [hms]
  · intro hid
    rw [hms]
    exact map_self_of_mem hid

/-- Claim C4: the number of candidate-pair comparisons is bounded by
(number of tiles) × (max shared edges per tile) × k² when every tile has at
most `k` boundary-touching contours, and it does not grow at all when
interior (non-boundary-touching) contours are added — so it scales with
N·k², not with the square of the total number of contours. -/
theorem c4_comparisons_scale (tol : Nat) (tiles : List Tile) (cs : List Cont)
    (k d : Nat)
    (hk : ∀ t ∈ tiles, (boundaryIdx tol tiles cs t.id).length ≤ k)
    (hd : ∀ i ∈ List.range tiles.length, (edgesFrom tol tiles i).length ≤ d) :
    comparisonsCount tol tiles cs ≤ tiles.length * d * (k * k) ∧
      ∀ extra : List Cont, (∀ c ∈ extra, hasAnyFlag tol tiles c = false) →
        comparisonsCount tol tiles (cs ++ extra) = comparisonsCount tol tiles cs :=
  ⟨comparisonsCount_le tol tiles cs k d hk hd,
   fun extra hint => comparisonsCount_append_interior tol tiles cs extra hint⟩

/-- Claim C5: the Pair Validator accepts a candidate pair exactly when the
two contours carry the same class label and their boundary regions, each
buffered outward by `merge_thresh / 2` pixels, intersect; the validation
stage never errors, and a candidate pair is kept exactly when it passes the
validator (failing pairs are silently dropped). -/
theorem c5_validator_characterization (mt : Nat) (c d : Cont) (cs : List Cont)
    (prs : List (Nat × Nat)) :
    (validatePair mt c d = true ↔
        c.group = d.group ∧ BufferedIntersect mt c.coords d.coords) ∧
      validateCandidates mt cs prs = .ok (validFilter mt cs prs) ∧
      ∀ pr ∈ prs, (pr ∈ validFilter mt cs prs ↔
        validatePair mt (cs.getD pr.1 default) (cs.getD pr.2 default) = true) := by
  refine ⟨?_, rfl, ?_⟩
  · rw [validatePair, Bool.and_eq_true, closeContours_iff_buffered, beq_iff_eq]
  · intro pr hpr
    rw [validFilter, List.mem_filter]
    exact ⟨fun h => h.2, fun h => ⟨hpr, h⟩⟩

/-- Claim C6: every output record carries its bounding box (recomputed from
its coordinate sequence) along with its group, color, has-holes flag and
coordinate sequence; a record is either a pass-through contour, which
retains its per-side touch flags (set, given every input contour resolves to
a tile) and bounding box, or a stitched record, whose tile and per-side
touch flags are unset. -/
theorem c6_output_record_fields (mt tol : Nat) (tiles : List Tile)
    (cs : List Cont)
    (ht : ∀ c ∈ cs, (flagsFor tol tiles c).isSome = true) :
    ∀ r ∈ (mergeStage mt tol tiles cs).1,
      r.bbox = some (bboxOf r.coords) ∧
        ((∃ i, i < cs.length ∧ r = passRec tol tiles (cs.getD i default) ∧
            r.touches.isSome = true) ∨
          (r.tileId = none ∧ r.touches = none)) := by
  intro r hr
  rcases mergeStage_out_mem hr with ⟨i, hil, rfl⟩ | ⟨htid, htch, hbb⟩
  · refine ⟨rfl, Or.inl ⟨i, hil, rfl, ?_⟩⟩
    show (flagsFor tol tiles (cs.getD i default)).isSome = true
    exact ht _ (getD_mem hil default)
  · exact ⟨hbb, Or.inr ⟨htid, htch⟩⟩

/-- Claim C7: failures are isolated.  A tile whose contour extraction fails
is dropped with a logged warning and the run continues, producing the same
records as if the tile had no contours; a merge group whose stitching fails
(degenerate member, a `GeometryError`) falls back to emitting its member
contours individually unmerged, with the error logged as a warning, instead
of aborting the run. -/
theorem c7_failures_isolated (mt tol : Nat) :
    (∀ (pre post : List TileInput) (t : Tile) (msg : String),
      (run mt tol (pre ++ ⟨t, .error msg⟩ :: post)).1 =
          (run mt tol (pre ++ ⟨t, .ok []⟩ :: post)).1 ∧
        ("warning: tile skipped: " ++ msg) ∈
          (run mt tol (pre ++ ⟨t, .error msg⟩ :: post)).2) ∧
      ∀ (tiles : List Tile) (cs : List Cont) (g : List Nat),
        g ∈ compsOf mt tol tiles cs → 2 ≤ g.length →
        (∃ i ∈ g, (cs.getD i default).coords.length < 3) →
        (∀ i ∈ g,
          passRec tol tiles (cs.getD i default) ∈ (mergeStage mt tol tiles cs).1) ∧
          "GeometryError: degenerate contour" ∈ (mergeStage mt tol tiles cs).2 :=
  ⟨fun pre post t msg => run_error_tile mt tol pre post t msg,
   fun tiles cs g hg hlen hdeg => mergeStage_fallback mt tol tiles cs hg hlen hdeg⟩

/-- Claim C8: for a stitched group whose members reached re-extraction (no
degenerate member), if re-extraction yields more than one contour then the
stitcher keeps exactly the largest re-extracted contour, logs a warning, and
returns normally — this case never raises an error. -/
theorem c8_multi_reextraction_keeps_largest (mt : Nat) (members : List Cont)
    (hdeg : ∀ c ∈ members, 3 ≤ c.coords.length)
    (hmul : 1 < (reextract mt members).length) :
    ∃ r ws, stitchGroup mt members = .ok (r, ws) ∧ ws ≠ [] ∧
      r.coords ∈ reextract mt members ∧
      ∀ g ∈ reextract mt members, g.length ≤ r.coords.length := by
  have hne : reextract mt members ≠ [] := by
    intro h
    rw [h] at hmul
    simp at hmul
  have hs : ∀ g ∈ reextract mt members, g ≠ [] := fun g hg => groups_ne_nil hg
  obtain ⟨hmem, hcov⟩ := largestOf_spec hne hs
  rw [stitchGroup_not_deg hdeg]
  refine ⟨_, _, rfl, ?_, hmem, hcov⟩
  rw [if_neg (by omega)]
  exact List.cons_ne_nil _ _

/-- Claim C9: the merge pipeline is idempotent: running the merge stage a
second time on its own output (with the same tile set) returns that output
unchanged — literally equal as lists, hence equal as sets — and adds no
warnings, provided the input contours are non-degenerate. -/
theorem c9_merge_idempotent (mt tol : Nat) (tiles : List Tile) (cs : List Cont)
    (h3 : ∀ c ∈ cs, 3 ≤ c.coords.length) :
    mergeStage mt tol tiles ((mergeStage mt tol tiles cs).1) =
      ((mergeStage mt tol tiles cs).1, []) :=
  mergeStage_idem mt tol tiles cs h3

/-- Claim C10: in the output table of a run, each output contour occupies
exactly one row, its coordinate sequence is serialized as two
comma-separated integer strings (`coords_x`, `coords_y`), and the has-holes
flag is encoded as 0/1. -/
theorem c10_rows_serialized (mt tol : Nat) (inputs : List TileInput) :
    (runRows mt tol inputs).length = (run mt tol inputs).1.length ∧
      (∀ c : Cont,
        (toRow c).coords_x =
            String.intercalate "," (c.coords.map fun p => toString p.1) ∧
          (toRow c).coords_y =
            String.intercalate "," (c.coords.map fun p => toString p.2)) ∧
      (∀ c : Cont, (toRow c).has_holes = 0 ∨ (toRow c).has_holes = 1) ∧
      ∀ i, i < (run mt tol inputs).1.length →
        (runRows mt tol inputs).getD i default =
          toRow ((run mt tol inputs).1.getD i default) := by
  refine ⟨List.length_map _ _, ?_, ?_, ?_⟩
  · intro c
    exact ⟨joinComma_eq_intercalate _, joinComma_eq_intercalate _⟩
  · intro c
    cases hh : c.hasHoles
    · left
      show (if c.hasHoles then 1 else 0) = 0
      rw [hh]
      rfl
    · right
      show (if c.hasHoles then 1 else 0) = 1
      rw [hh]
      rfl
  · intro i hi
    rw [runRows]
    have hlen2 : i < ((run mt tol inputs).1.map toRow).length := by
      rw [List.length_map]
      exact hi
    rw [List.getD_eq_getElem _ _ hlen2, List.getD_eq_getElem _ _ hi, List.getElem_map]


/-! ### Concrete witnesses -/

/-- Witness for C1: two 10-pixel tiles side by side, one small square of the
same class on each side of the shared vertical edge, gap 1 ≤ merge_thresh. -/
theorem c1_witness :
    sharedEdges 1 [⟨0, 0, 0, 10, 10⟩, ⟨1, 0, 10, 10, 20⟩] = [⟨0, 1, Side.right⟩] ∧
      closeContours 2 [(9, 4), (10, 4), (10, 5), (9, 5)]
        [(11, 4), (12, 4), (12, 5), (11, 5)] = true ∧
      (reextract 2
        [⟨"t", "r", some 0, [(9, 4), (10, 4), (10, 5), (9, 5)], false, none, none⟩,
         ⟨"t", "r", some 1, [(11, 4), (12, 4), (12, 5), (11, 5)], false, none, none⟩]).length
        = 1 ∧
      ∃ rec bb,
        (mergeStage 2 1 [⟨0, 0, 0, 10, 10⟩, ⟨1, 0, 10, 10, 20⟩]
          [⟨"t", "r", some 0, [(9, 4), (10, 4), (10, 5), (9, 5)], false, none, none⟩,
           ⟨"t", "r", some 1, [(11, 4), (12, 4), (12, 5), (11, 5)], false, none, none⟩]).1
          = [rec] ∧
        rec.touches = none ∧ rec.bbox = some bb ∧
        (∀ p ∈ (⟨"t", "r", some 0, [(9, 4), (10, 4), (10, 5), (9, 5)], false, none,
          none⟩ : Cont).coords, pointInBB p bb) ∧
        ∀ p ∈ (⟨"t", "r", some 1, [(11, 4), (12, 4), (12, 5), (11, 5)], false, none,
          none⟩ : Cont).coords, pointInBB p bb :=
  ⟨by decide, by decide, by decide,
   c1_single_straddling_contour_merged 2 1 ⟨0, 0, 0, 10, 10⟩ ⟨1, 0, 10, 10, 20⟩
     ⟨"t", "r", some 0, [(9, 4), (10, 4), (10, 5), (9, 5)], false, none, none⟩
     ⟨"t", "r", some 1, [(11, 4), (12, 4), (12, 5), (11, 5)], false, none, none⟩
     Side.right (by decide) (by decide) (by decide) (by decide) (by decide)
     (by decide) (by decide) (by decide) (by decide) (by decide) (by decide)
     (by decide)⟩

/-- Witness for C2: a three-node chain 0-1, 1-2 groups 0 and 2 together even
though the pair 0-2 never validated. -/
theorem c2_witness :
    (∀ e ∈ [((0 : Nat), (1 : Nat)), (1, 2)], e.1 < 3 ∧ e.2 < 3) ∧
      (0, 1) ∈ [((0 : Nat), (1 : Nat)), (1, 2)] ∧
      (1, 2) ∈ [((0 : Nat), (1 : Nat)), (1, 2)] ∧
      2 ∈ comp (adjOf [(0, 1), (1, 2)]) (List.range 3) 0 :=
  ⟨by decide, by decide, by decide,
   (c2_grouping_is_connected_components [(0, 1), (1, 2)] 3 (by decide)).1 0 1 2
     (by decide) (by decide)⟩

/-- Witness for C3: two adjacent tiles whose boundary contours carry
different class labels; the merge stage passes everything through. -/
theorem c3_witness :
    (∀ pr ∈ allCandidates 2 1 [⟨0, 0, 0, 10, 10⟩, ⟨1, 0, 10, 10, 20⟩]
        [⟨"t", "r", some 0, [(9, 4), (10, 4), (10, 5), (9, 5)], false, none, none⟩,
         ⟨"s", "b", some 1, [(11, 4), (12, 4), (12, 5), (11, 5)], false, none, none⟩],
      validatePair 2
        (([⟨"t", "r", some 0, [(9, 4), (10, 4), (10, 5), (9, 5)], false, none, none⟩,
           ⟨"s", "b", some 1, [(11, 4), (12, 4), (12, 5), (11, 5)], false, none,
            none⟩] : List Cont).getD pr.1 default)
        (([⟨"t", "r", some 0, [(9, 4), (10, 4), (10, 5), (9, 5)], false, none, none⟩,
           ⟨"s", "b", some 1, [(11, 4), (12, 4), (12, 5), (11, 5)], false, none,
            none⟩] : List Cont).getD pr.2 default) = false) ∧
      (mergeStage 2 1 [⟨0, 0, 0, 10, 10⟩, ⟨1, 0, 10, 10, 20⟩]
        [⟨"t", "r", some 0, [(9, 4), (10, 4), (10, 5), (9, 5)], false, none, none⟩,
         ⟨"s", "b", some 1, [(11, 4), (12, 4), (12, 5), (11, 5)], false, none,
          none⟩]).1 =
      ([⟨"t", "r", some 0, [(9, 4), (10, 4), (10, 5), (9, 5)], false, none, none⟩,
        ⟨"s", "b", some 1, [(11, 4), (12, 4), (12, 5), (11, 5)], false, none,
         none⟩] : List Cont).map (passRec 1 [⟨0, 0, 0, 10, 10⟩, ⟨1, 0, 10, 10, 20⟩]) :=
  ⟨by decide,
   (c3_no_shared_contours_noop 2 1 [⟨0, 0, 0, 10, 10⟩, ⟨1, 0, 10, 10, 20⟩]
     [⟨"t", "r", some 0, [(9, 4), (10, 4), (10, 5), (9, 5)], false, none, none⟩,
      ⟨"s", "b", some 1, [(11, 4), (12, 4), (12, 5), (11, 5)], false, none, none⟩]
     (by decide)).1⟩

/-- Witness for C4: two tiles with one boundary contour each (k = 1, at most
one shared edge per tile), and an interior contour that adds nothing to the
comparison count. -/
theorem c4_witness :
    (∀ t ∈ ([⟨0, 0, 0, 10, 10⟩, ⟨1, 0, 10, 10, 20⟩] : List Tile),
      (boundaryIdx 1 [⟨0, 0, 0, 10, 10⟩, ⟨1, 0, 10, 10, 20⟩]
        [⟨"t", "r", some 0, [(9, 4), (10, 4), (10, 5), (9, 5)], false, none, none⟩,
         ⟨"t", "r", some 1, [(11, 4), (12, 4), (12, 5), (11, 5)], false, none, none⟩]
        t.id).length ≤ 1) ∧
      (∀ i ∈ List.range ([⟨0, 0, 0, 10, 10⟩, ⟨1, 0, 10, 10, 20⟩] : List Tile).length,
        (edgesFrom 1 [⟨0, 0, 0, 10, 10⟩, ⟨1, 0, 10, 10, 20⟩] i).length ≤ 1) ∧
      comparisonsCount 1 [⟨0, 0, 0, 10, 10⟩, ⟨1, 0, 10, 10, 20⟩]
        [⟨"t", "r", some 0, [(9, 4), (10, 4), (10, 5), (9, 5)], false, none, none⟩,
         ⟨"t", "r", some 1, [(11, 4), (12, 4), (12, 5), (11, 5)], false, none, none⟩] ≤
        ([⟨0, 0, 0, 10, 10⟩, ⟨1, 0, 10, 10, 20⟩] : List Tile).length * 1 * (1 * 1) ∧
      comparisonsCount 1 [⟨0, 0, 0, 10, 10⟩, ⟨1, 0, 10, 10, 20⟩]
        ([⟨"t", "r", some 0, [(9, 4), (10, 4), (10, 5), (9, 5)], false, none, none⟩,
          ⟨"t", "r", some 1, [(11, 4), (12, 4), (12, 5), (11, 5)], false, none, none⟩] ++
         [⟨"t", "r", some 0, [(5, 5), (6, 5), (6, 6)], false, none, none⟩]) =
      comparisonsCount 1 [⟨0, 0, 0, 10, 10⟩, ⟨1, 0, 10, 10, 20⟩]
        [⟨"t", "r", some 0, [(9, 4), (10, 4), (10, 5), (9, 5)], false, none, none⟩,
         ⟨"t", "r", some 1, [(11, 4), (12, 4), (12, 5), (11, 5)], false, none, none⟩] :=
  ⟨by decide, by decide,
   (c4_comparisons_scale 1 [⟨0, 0, 0, 10, 10⟩, ⟨1, 0, 10, 10, 20⟩]
     [⟨"t", "r", some 0, [(9, 4), (10, 4), (10, 5), (9, 5)], false, none, none⟩,
      ⟨"t", "r", some 1, [(11, 4), (12, 4), (12, 5), (11, 5)], false, none, none⟩]
     1 1 (by decide) (by decide)).1,
   (c4_comparisons_scale 1 [⟨0, 0, 0, 10, 10⟩, ⟨1, 0, 10, 10, 20⟩]
     [⟨"t", "r", some 0, [(9, 4), (10, 4), (10, 5), (9, 5)], false, none, none⟩,
      ⟨"t", "r", some 1, [(11, 4), (12, 4), (12, 5), (11, 5)], false, none, none⟩]
     1 1 (by decide) (by decide)).2
     [⟨"t", "r", some 0, [(5, 5), (6, 5), (6, 6)], false, none, none⟩] (by decide)⟩

/-- Witness for C5: the single candidate pair of the two-tile scenario is
kept by the validation stage exactly because the validator accepts it. -/
theorem c5_witness :
    ((0, 1) ∈ [((0 : Nat), (1 : Nat))]) ∧
      ((0, 1) ∈ validFilter 2
          [⟨"t", "r", some 0, [(9, 4), (10, 4), (10, 5), (9, 5)], false, none, none⟩,
           ⟨"t", "r", some 1, [(11, 4), (12, 4), (12, 5), (11, 5)], false, none, none⟩]
          [(0, 1)] ↔
        validatePair 2
          (([⟨"t", "r", some 0, [(9, 4), (10, 4), (10, 5), (9, 5)], false, none, none⟩,
             ⟨"t", "r", some 1, [(11, 4), (12, 4), (12, 5), (11, 5)], false, none,
              none⟩] : List Cont).getD 0 default)
          (([⟨"t", "r", some 0, [(9, 4), (10, 4), (10, 5), (9, 5)], false, none, none⟩,
             ⟨"t", "r", some 1, [(11, 4), (12, 4), (12, 5), (11, 5)], false, none,
              none⟩] : List Cont).getD 1 default) = true) :=
  ⟨by decide,
   (c5_validator_characterization 2 default default
     [⟨"t", "r", some 0, [(9, 4), (10, 4), (10, 5), (9, 5)], false, none, none⟩,
      ⟨"t", "r", some 1, [(11, 4), (12, 4), (12, 5), (11, 5)], false, none, none⟩]
     [(0, 1)]).2.2 (0, 1) (by decide)⟩

/-- Witness for C6: the no-merge two-tile instance; every output record has
its bounding box filled in and is a pass-through with set flags or a
stitched record with unset flags. -/
theorem c6_witness :
    (∀ c ∈ [(⟨"t", "r", some 0, [(9, 4), (10, 4), (10, 5), (9, 5)], false, none,
        none⟩ : Cont),
       ⟨"s", "b", some 1, [(11, 4), (12, 4), (12, 5), (11, 5)], false, none, none⟩],
      (flagsFor 1 [⟨0, 0, 0, 10, 10⟩, ⟨1, 0, 10, 10, 20⟩] c).isSome = true) ∧
      ∀ r ∈ (mergeStage 2 1 [⟨0, 0, 0, 10, 10⟩, ⟨1, 0, 10, 10, 20⟩]
        [⟨"t", "r", some 0, [(9, 4), (10, 4), (10, 5), (9, 5)], false, none, none⟩,
         ⟨"s", "b", some 1, [(11, 4), (12, 4), (12, 5), (11, 5)], false, none,
          none⟩]).1,
        r.bbox = some (bboxOf r.coords) ∧
          ((∃ i, i < ([⟨"t", "r", some 0, [(9, 4), (10, 4), (10, 5), (9, 5)], false,
              none, none⟩,
             ⟨"s", "b", some 1, [(11, 4), (12, 4), (12, 5), (11, 5)], false, none,
              none⟩] : List Cont).length ∧
            r = passRec 1 [⟨0, 0, 0, 10, 10⟩, ⟨1, 0, 10, 10, 20⟩]
              (([⟨"t", "r", some 0, [(9, 4), (10, 4), (10, 5), (9, 5)], false, none,
                 none⟩,
                ⟨"s", "b", some 1, [(11, 4), (12, 4), (12, 5), (11, 5)], false, none,
                 none⟩] : List Cont).getD i default) ∧
            r.touches.isSome = true) ∨
          (r.tileId = none ∧ r.touches = none)) :=
  ⟨by decide,
   c6_output_record_fields 2 1 [⟨0, 0, 0, 10, 10⟩, ⟨1, 0, 10, 10, 20⟩]
     [⟨"t", "r", some 0, [(9, 4), (10, 4), (10, 5), (9, 5)], false, none, none⟩,
      ⟨"s", "b", some 1, [(11, 4), (12, 4), (12, 5), (11, 5)], false, none, none⟩]
     (by decide)⟩

/-- Witness for C7: a failing tile in a one-tile run, and a two-contour
group whose first member is degenerate (2 points) so stitching falls back to
the unmerged members. -/
theorem c7_witness :
    ((run 2 1 ([] ++ ⟨⟨0, 0, 0, 10, 10⟩, .error "boom"⟩ :: [])).1 =
        (run 2 1 ([] ++ ⟨⟨0, 0, 0, 10, 10⟩, .ok []⟩ :: [])).1 ∧
      ("warning: tile skipped: " ++ "boom") ∈
        (run 2 1 ([] ++ ⟨⟨0, 0, 0, 10, 10⟩, .error "boom"⟩ :: [])).2) ∧
      ([0, 1] ∈ compsOf 2 1 [⟨0, 0, 0, 10, 10⟩, ⟨1, 0, 10, 10, 20⟩]
        [⟨"t", "r", some 0, [(9, 4), (10, 4)], false, none, none⟩,
         ⟨"t", "r", some 1, [(11, 4), (12, 4), (12, 5), (11, 5)], false, none, none⟩]) ∧
      2 ≤ ([0, 1] : List Nat).length ∧
      (∃ i ∈ ([0, 1] : List Nat),
        (([⟨"t", "r", some 0, [(9, 4), (10, 4)], false, none, none⟩,
           ⟨"t", "r", some 1, [(11, 4), (12, 4), (12, 5), (11, 5)], false, none,
            none⟩] : List Cont).getD i default).coords.length < 3) ∧
      ((∀ i ∈ ([0, 1] : List Nat),
        passRec 1 [⟨0, 0, 0, 10, 10⟩, ⟨1, 0, 10, 10, 20⟩]
          (([⟨"t", "r", some 0, [(9, 4), (10, 4)], false, none, none⟩,
             ⟨"t", "r", some 1, [(11, 4), (12, 4), (12, 5), (11, 5)], false, none,
              none⟩] : List Cont).getD i default) ∈
          (mergeStage 2 1 [⟨0, 0, 0, 10, 10⟩, ⟨1, 0, 10, 10, 20⟩]
            [⟨"t", "r", some 0, [(9, 4), (10, 4)], false, none, none⟩,
             ⟨"t", "r", some 1, [(11, 4), (12, 4), (12, 5), (11, 5)], false, none,
              none⟩]).1) ∧
        "GeometryError: degenerate contour" ∈
          (mergeStage 2 1 [⟨0, 0, 0, 10, 10⟩, ⟨1, 0, 10, 10, 20⟩]
            [⟨"t", "r", some 0, [(9, 4), (10, 4)], false, none, none⟩,
             ⟨"t", "r", some 1, [(11, 4), (12, 4), (12, 5), (11, 5)], false, none,
              none⟩]).2) :=
  ⟨(c7_failures_isolated 2 1).1 [] [] ⟨0, 0, 0, 10, 10⟩ "boom",
   by decide, by decide, by decide,
   (c7_failures_isolated 2 1).2 [⟨0, 0, 0, 10, 10⟩, ⟨1, 0, 10, 10, 20⟩]
     [⟨"t", "r", some 0, [(9, 4), (10, 4)], false, none, none⟩,
      ⟨"t", "r", some 1, [(11, 4), (12, 4), (12, 5), (11, 5)], false, none, none⟩]
     [0, 1] (by decide) (by decide) (by decide)⟩

/-- Witness for C8: two far-apart triangles in one group; the closed raster
re-extracts to two contours and the stitcher keeps the largest with a
warning, without error. -/
theorem c8_witness :
    (∀ c ∈ [(⟨"t", "r", some 0, [(0, 0), (0, 1), (1, 0)], false, none, none⟩ : Cont),
       ⟨"t", "r", some 0, [(10, 10), (10, 11), (11, 10)], false, none, none⟩],
      3 ≤ c.coords.length) ∧
      1 < (reextract 1
        [⟨"t", "r", some 0, [(0, 0), (0, 1), (1, 0)], false, none, none⟩,
         ⟨"t", "r", some 0, [(10, 10), (10, 11), (11, 10)], false, none, none⟩]).length ∧
      ∃ r ws, stitchGroup 1
          [⟨"t", "r", some 0, [(0, 0), (0, 1), (1, 0)], false, none, none⟩,
           ⟨"t", "r", some 0, [(10, 10), (10, 11), (11, 10)], false, none, none⟩] =
          .ok (r, ws) ∧
        ws ≠ [] ∧
        r.coords ∈ reextract 1
          [⟨"t", "r", some 0, [(0, 0), (0, 1), (1, 0)], false, none, none⟩,
           ⟨"t", "r", some 0, [(10, 10), (10, 11), (11, 10)], false, none, none⟩] ∧
        ∀ g ∈ reextract 1
          [⟨"t", "r", some 0, [(0, 0), (0, 1), (1, 0)], false, none, none⟩,
           ⟨"t", "r", some 0, [(10, 10), (10, 11), (11, 10)], false, none, none⟩],
          g.length ≤ r.coords.length :=
  ⟨by decide, by decide,
   c8_multi_reextraction_keeps_largest 1
     [⟨"t", "r", some 0, [(0, 0), (0, 1), (1, 0)], false, none, none⟩,
      ⟨"t", "r", some 0, [(10, 10), (10, 11), (11, 10)], false, none, none⟩]
     (by decide) (by decide)⟩

/-- Witness for C9: the two-tile merging instance; running the merge stage
on its own output returns the output unchanged. -/
theorem c9_witness :
    (∀ c ∈ [(⟨"t", "r", some 0, [(9, 4), (10, 4), (10, 5), (9, 5)], false, none,
        none⟩ : Cont),
       ⟨"t", "r", some 1, [(11, 4), (12, 4), (12, 5), (11, 5)], false, none, none⟩],
      3 ≤ c.coords.length) ∧
      mergeStage 2 1 [⟨0, 0, 0, 10, 10⟩, ⟨1, 0, 10, 10, 20⟩]
        ((mergeStage 2 1 [⟨0, 0, 0, 10, 10⟩, ⟨1, 0, 10, 10, 20⟩]
          [⟨"t", "r", some 0, [(9, 4), (10, 4), (10, 5), (9, 5)], false, none, none⟩,
           ⟨"t", "r", some 1, [(11, 4), (12, 4), (12, 5), (11, 5)], false, none,
            none⟩]).1) =
      ((mergeStage 2 1 [⟨0, 0, 0, 10, 10⟩, ⟨1, 0, 10, 10, 20⟩]
        [⟨"t", "r", some 0, [(9, 4), (10, 4), (10, 5), (9, 5)], false, none, none⟩,
         ⟨"t", "r", some 1, [(11, 4), (12, 4), (12, 5), (11, 5)], false, none,
          none⟩]).1, []) :=
  ⟨by decide,
   c9_merge_idempotent 2 1 [⟨0, 0, 0, 10, 10⟩, ⟨1, 0, 10, 10, 20⟩]
     [⟨"t", "r", some 0, [(9, 4), (10, 4), (10, 5), (9, 5)], false, none, none⟩,
      ⟨"t", "r", some 1, [(11, 4), (12, 4), (12, 5), (11, 5)], false, none, none⟩]
     (by decide)⟩

/-- Witness for C10: a one-tile run with one contour; its single output row
is the serialization of the single output record. -/
theorem c10_witness :
    0 < (run 2 1 [⟨⟨0, 0, 0, 10, 10⟩, .ok
        [⟨"t", "r", some 0, [(9, 4), (10, 4), (10, 5), (9, 5)], false, none,
          none⟩]⟩]).1.length ∧
      (runRows 2 1 [⟨⟨0, 0, 0, 10, 10⟩, .ok
        [⟨"t", "r", some 0, [(9, 4), (10, 4), (10, 5), (9, 5)], false, none,
          none⟩]⟩]).getD 0 default =
      toRow ((run 2 1 [⟨⟨0, 0, 0, 10, 10⟩, .ok
        [⟨"t", "r", some 0, [(9, 4), (10, 4), (10, 5), (9, 5)], false, none,
          none⟩]⟩]).1.getD 0 default) :=
  ⟨by decide,
   (c10_rows_serialized 2 1 [⟨⟨0, 0, 0, 10, 10⟩, .ok
     [⟨"t", "r", some 0, [(9, 4), (10, 4), (10, 5), (9, 5)], false, none,
       none⟩]⟩]).2.2.2 0 (by decide)⟩


end PolygonMerger
